import Mathlib

/-!
Shallow embedding of the core numeric components of the `mcdm-tool`
repository (files `src/mcdm/normalisation.py`, `src/mcdm/ahp.py`,
`src/mcdm/topsis.py`, `src/mcdm/sensitivity.py`, and the ranking step of
`src/mcdm/visualisation_static.py`), together with theorems settling the
specification claims about them.

Floating-point values are modelled as real numbers; NumPy/pandas division
is total in the embedding with `x / 0 = 0` (where the Python code would
produce `inf`/`NaN` this is called out explicitly at the relevant claims).
Pandas data frames in long format are modelled as lists of observations,
Python dicts as insertion-ordered association lists.
-/

set_option maxHeartbeats 1000000

noncomputable section

/-- One row of the long-format data frame used throughout the pipeline:
columns `Region`, `Category`, `Sub-category`, `Value`, `Cost/Benefit`. -/
structure Obs where
  region : String
  category : String
  subCategory : String
  value : ℝ
  ctype : String

/-- Nested weight dictionary `{Category: {Sub-category: weight}}`,
modelled as an insertion-ordered association list like a Python dict. -/
abbrev WeightTree := List (String × List (String × ℝ))

/-- Maximum of a list of reals, as pandas `.max()` on a nonempty series.
The `[]` default is never used on the pipeline's nonempty groups. -/
def listMax : List ℝ → ℝ
  | [] => 0
  | [x] => x
  | x :: y :: t => max x (listMax (y :: t))

/-- Minimum of a list of reals, as pandas `.min()` on a nonempty series. -/
def listMin : List ℝ → ℝ
  | [] => 0
  | [x] => x
  | x :: y :: t => min x (listMin (y :: t))

/-! ## Normalizer: `min_max_normalize` from `src/mcdm/normalisation.py`

The Python function first parses the `Value` column to numbers (stripping
thousand separators and converting comma decimal marks); here values are
already real numbers, i.e. the claims' hypothesis "raw values parse to
numbers" is baked into the model.  It then rewrites each
`(Category, Sub-category)` group in place: every row's new value depends
only on its own old value and its group's min/max/type, so the loop is a
pure per-row transform. -/

/-- `str.lower()`: lowercase every character (structural equivalent of
`String.toLower`, whose well-founded recursion does not reduce). -/
def strLower (s : String) : String := ⟨s.data.map Char.toLower⟩

/-- Raw values of the `(category, sub-category)` group of a dataset
(`values = norm_data.loc[mask, "Value"]`). -/
def groupValues (data : List Obs) (c s : String) : List ℝ :=
  (data.filter fun o => o.category == c && o.subCategory == s).map (·.value)

/-- The group's `Cost/Benefit` marker, taken from the group's first row
(`norm_data.loc[mask, "Cost/Benefit"].iloc[0]`). -/
def groupCtype (data : List Obs) (c s : String) : String :=
  (((data.filter fun o => o.category == c && o.subCategory == s).map (·.ctype)).head?).getD ""

/-- New value of one row under `min_max_normalize`: `1.0` for a
zero-variance group, else the orientation-aware min-max rescale. -/
def normValue (data : List Obs) (o : Obs) : ℝ :=
  let vs := groupValues data o.category o.subCategory
  let M := listMax vs
  let m := listMin vs
  if M = m then 1
  else if strLower (groupCtype data o.category o.subCategory) = "cost" then
    (M - o.value) / (M - m)
  else
    (o.value - m) / (M - m)

/-- `min_max_normalize(data)`: the dataset with each row's value replaced
by its group-normalized value. -/
def min_max_normalize (data : List Obs) : List Obs :=
  data.map fun o => { o with value := normValue data o }

/-! ## ScoringEngine: `topsis` from `src/mcdm/topsis.py`

All in-repository callers invoke `topsis(norm_data, weights)` without the
optional `criteria_type_col`, so every criterion is treated as Benefit and
the cost-flip branch is dead; the embedding models that call form.
The pandas pivot table indexes rows by the sorted distinct regions;
columns are the distinct `(Category, Sub-category)` pairs (their order is
immaterial: they are only ever summed over). -/

/-- Insertion of an element into an ascending sorted list. -/
def insertLe (x : String) : List String → List String
  | [] => [x]
  | y :: t => if x ≤ y then x :: y :: t else y :: insertLe x t

/-- Ascending insertion sort on strings (the pandas pivot index order). -/
def sortLe : List String → List String :=
  List.foldr insertLe []

/-- Weight lookup `weights.get(cat, {}).get(sub, 1.0)` — missing
categories or sub-categories default to weight `1.0`. -/
def weightOf (w : WeightTree) (c s : String) : ℝ :=
  match List.lookup c w with
  | none => 1
  | some subs => (List.lookup s subs).getD 1

/-- Row labels of the pivot table: sorted distinct regions. -/
def regionsOf (data : List Obs) : List String :=
  sortLe (data.map (·.region)).dedup

/-- Column labels of the pivot table: distinct
`(Category, Sub-category)` pairs observed anywhere in the dataset. -/
def keysOf (data : List Obs) : List (String × String) :=
  (data.map fun o => (o.category, o.subCategory)).dedup

/-- One pivot cell (`aggfunc='sum'`, `fill_value=0`): the sum of the
weighted values of all observations of region `r` and criterion `k`;
`0` when there are none. -/
def pivotCell (data : List Obs) (w : WeightTree) (r : String)
    (k : String × String) : ℝ :=
  ((data.filter fun o =>
      o.region == r && o.category == k.1 && o.subCategory == k.2).map
    fun o => o.value * weightOf w o.category o.subCategory).sum

/-- Ideal solution per criterion: the column maximum (`df_pivot.max()`). -/
def ideal (data : List Obs) (w : WeightTree) (k : String × String) : ℝ :=
  listMax ((regionsOf data).map fun r => pivotCell data w r k)

/-- Anti-ideal solution per criterion: the column minimum. -/
def antiIdeal (data : List Obs) (w : WeightTree) (k : String × String) : ℝ :=
  listMin ((regionsOf data).map fun r => pivotCell data w r k)

/-- Euclidean distance of a region's row to the ideal solution. -/
def distIdeal (data : List Obs) (w : WeightTree) (r : String) : ℝ :=
  Real.sqrt (((keysOf data).map fun k =>
    (pivotCell data w r k - ideal data w k) ^ 2).sum)

/-- Euclidean distance of a region's row to the anti-ideal solution. -/
def distAnti (data : List Obs) (w : WeightTree) (r : String) : ℝ :=
  Real.sqrt (((keysOf data).map fun k =>
    (pivotCell data w r k - antiIdeal data w k) ^ 2).sum)

/-- Raw TOPSIS closeness coefficient `d- / (d+ + d-)` of one region.
In the embedding division is total with `x / 0 = 0`; NumPy would produce
`NaN` on a zero denominator (no guard exists in the code). -/
def rawScore (data : List Obs) (w : WeightTree) (r : String) : ℝ :=
  distAnti data w r / (distIdeal data w r + distAnti data w r)

/-- The series of raw closeness coefficients, ordered like the pivot. -/
def rawScores (data : List Obs) (w : WeightTree) : List ℝ :=
  (regionsOf data).map (rawScore data w)

/-- The `[ε,1]` display rescale applied across regions, `ε = 0.01`:
`(s - min) / (max - min) * (1 - ε) + ε`.  The code has no guard for
`max = min`; there NumPy yields `NaN` (total division renders it `ε`). -/
def finalScore (data : List Obs) (w : WeightTree) (r : String) : ℝ :=
  (rawScore data w r - listMin (rawScores data w)) /
      (listMax (rawScores data w) - listMin (rawScores data w)) *
    (1 - 1 / 100) + 1 / 100

/-- `topsis(norm_data, weights)`: the `["Region", "TOPSIS Score"]` frame,
one row per distinct region in pivot (sorted-region) order. -/
def topsis (data : List Obs) (w : WeightTree) : List (String × ℝ) :=
  (regionsOf data).map fun r => (r, finalScore data w r)

/-! ## WeightDeriver: `ahp_weights` from `src/mcdm/ahp.py`

`ahp_weights` maps the per-matrix computation below over a dict of named
pairwise matrices.  A square matrix over its `n` items is modelled as
`Fin n → Fin n → ℝ` (the only exception the Python code can raise is a
`ValueError` for a non-square sheet, which this representation rules out
by construction; for a square matrix the NumPy pipeline raises nothing —
a failed reciprocity check only prints a warning).  The geometric-mean
step is `np.prod(arr, axis=1) ** (1 / arr.shape[0])` followed by
normalization by the sum. -/

/-- Row geometric means `w_i = (Π_j a_ij) ^ (1/n)` (real power, as the
NumPy float `**`). -/
def geomMeans {n : ℕ} (a : Fin n → Fin n → ℝ) (i : Fin n) : ℝ :=
  (∏ j, a i j) ^ ((1 : ℝ) / n)

/-- Normalized AHP weights of one pairwise matrix:
`geom_means / np.sum(geom_means)`. -/
def ahpWeights {n : ℕ} (a : Fin n → Fin n → ℝ) (i : Fin n) : ℝ :=
  geomMeans a i / ∑ j, geomMeans a j

/-! ## SensitivityAnalyzer: `sensitivity_analysis` from
`src/mcdm/sensitivity.py`

For each leaf `(category, sub_category)` the weight is scaled by
`1 ± delta`, the whole category is renormalized by its new total, TOPSIS
is re-run, and the scores are stored in a result dict under the string
key `f"{category}_{sub_category}_{direction}"`.  The Python dict is
modelled as an insertion-ordered association list with overwriting
insert, so colliding keys overwrite exactly as in Python. -/

/-- Scale the `target` entry of a category's sub-weight dict by `factor`
and divide every entry by the new total
(`weights_plus[category][sub] = orig * factor; ... /= total`).  When the
new total is exactly `0`, the Python float division `/= total` raises
`ZeroDivisionError`, so the result is `none`; otherwise `some` of the
renormalized dict. -/
def renormCat (subs : List (String × ℝ)) (target : String) (factor : ℝ) :
    Option (List (String × ℝ)) :=
  let bumped := subs.map fun p => (p.1, if p.1 = target then p.2 * factor else p.2)
  let total := (bumped.map (·.2)).sum
  if total = 0 then none
  else some (bumped.map fun p => (p.1, p.2 / total))

/-- The sub-weight dict of one category of the tree
(`weights_plus[category]`; Python dict keys are unique, so the first
binding is the category's dict). -/
def catSubs (w : WeightTree) (cat : String) : List (String × ℝ) :=
  (List.lookup cat w).getD []

/-- The perturbed copy of the weight tree: `copy.deepcopy` plus in-place
renormalization of the `cat` category; `none` when that renormalization
divides by a zero total. -/
def perturbTree (w : WeightTree) (cat target : String) (factor : ℝ) :
    Option WeightTree :=
  (renormCat (catSubs w cat) target factor).map fun subs =>
    w.map fun p => if p.1 = cat then (p.1, subs) else p

/-- Python-dict insertion: overwrite the value if the key is present,
otherwise append the binding. -/
def dictInsert {α : Type} (m : List (String × α)) (k : String) (v : α) :
    List (String × α) :=
  if m.any fun p => p.1 == k then
    m.map fun p => if p.1 == k then (p.1, v) else p
  else m ++ [(k, v)]

/-- The leaves of a weight tree in iteration order: one
`(category, sub_category)` pair per inner weight entry. -/
def treeLeaves (w : WeightTree) : List (String × String) :=
  w.flatMap fun p => p.2.map fun q => (p.1, q.1)

/-- The result-dict key `f"{category}_{sub_category}_{direction}"`. -/
def scenarioKey (cat sub dir : String) : String :=
  cat ++ "_" ++ sub ++ "_" ++ dir

/-- The result-dict loop of `sensitivity_analysis`: for each leaf in
iteration order, build the `plus` and the `minus` perturbed tree, score
them, and insert both under their scenario keys; a `ZeroDivisionError`
in either renormalization aborts the whole loop with `none` (the
exception propagates and every stored result is lost). -/
def sensitivityResults (nd : List Obs) (w : WeightTree) (delta : ℝ) :
    List (String × String) → List (String × List (String × ℝ)) →
      Option (List (String × List (String × ℝ)))
  | [], acc => some acc
  | l :: rest, acc =>
    match perturbTree w l.1 l.2 (1 + delta),
        perturbTree w l.1 l.2 (1 - delta) with
    | some tp, some tm =>
      sensitivityResults nd w delta rest
        (dictInsert
          (dictInsert acc (scenarioKey l.1 l.2 "plus") (topsis nd tp))
          (scenarioKey l.1 l.2 "minus") (topsis nd tm))
    | _, _ => none

/-- `sensitivity_analysis(norm_data, weights, delta)`: the baseline
TOPSIS scores and the dict of perturbed score tables; `none` when some
renormalization raises `ZeroDivisionError` (the uncaught exception
aborts the whole call with no result). -/
def sensitivity_analysis (nd : List Obs) (w : WeightTree) (delta : ℝ) :
    Option (List (String × ℝ) × List (String × List (String × ℝ))) :=
  match sensitivityResults nd w delta (treeLeaves w) [] with
  | none => none
  | some results => some (topsis nd w, results)

/-! ## Ranking: `plot_country_results_static` from
`src/mcdm/visualisation_static.py`

`topsis` itself returns only `["Region", "TOPSIS Score"]`; when the
scores frame carries no `Rank` column the static visualiser computes
`merged["Score"].rank(ascending=False, method="min")`: the rank of a
score is its position in the descending sort of all scores, tied scores
taking the first (minimum) such position. -/

/-- Insertion of an element into a descending sorted list; ties go after
the existing equal elements. -/
def insertGe (x : ℝ) : List ℝ → List ℝ
  | [] => [x]
  | y :: t => if y < x then x :: y :: t else y :: insertGe x t

/-- Descending sort of the score series. -/
def sortGe : List ℝ → List ℝ :=
  List.foldr insertGe []

/-- Pandas `rank(ascending=False, method="min")` of one score value
within a score series: one plus its (first) position in the descending
sort. -/
def rankMinDesc (scores : List ℝ) (x : ℝ) : ℕ :=
  (sortGe scores).indexOf x + 1

/-! ## Concrete inputs used by the claim theorems and witnesses -/

/-- Keys of a modelled Python dict. -/
def dictKeys {α : Type} (m : List (String × α)) : List String :=
  m.map (·.1)

/-- A weight tree putting weight `1.0` on the single criterion `(C, s)`. -/
def unitTree : WeightTree := [("C", [("s", 1)])]

/-- Two regions, one benefit criterion, normalized values `0` and `1`. -/
def twoRegionData : List Obs :=
  [⟨"A", "C", "s", 0, "Benefit"⟩, ⟨"B", "C", "s", 1, "Benefit"⟩]

/-- `twoRegionData` with region `A`'s value raised from `0` to `1/2`. -/
def twoRegionBumped : List Obs :=
  [⟨"A", "C", "s", 1 / 2, "Benefit"⟩, ⟨"B", "C", "s", 1, "Benefit"⟩]

/-- Weight tree with two sub-criteria of weight `1.0` each. -/
def symTree : WeightTree := [("C", [("s1", 1), ("s2", 1)])]

/-- Two regions with mirrored values on two criteria: both end up at the
same distance from the ideal and the anti-ideal, so both raw closeness
coefficients equal `1/2`. -/
def symData : List Obs :=
  [⟨"A", "C", "s1", 1, "Benefit"⟩, ⟨"A", "C", "s2", 0, "Benefit"⟩,
   ⟨"B", "C", "s1", 0, "Benefit"⟩, ⟨"B", "C", "s2", 1, "Benefit"⟩]

/-- The spec's literal scenario: one cost criterion `Distance` with raw
values `Region1 = 10`, `Region2 = 20`. -/
def distanceData : List Obs :=
  [⟨"Region1", "C", "Distance", 10, "Cost"⟩,
   ⟨"Region2", "C", "Distance", 20, "Cost"⟩]

/-- Weight `1.0` on the `Distance` criterion. -/
def distanceTree : WeightTree := [("C", [("Distance", 1)])]

/-- A dataset whose `(C, s)` group has identical raw values. -/
def constData : List Obs :=
  [⟨"A", "C", "s", 5, "Benefit"⟩, ⟨"B", "C", "s", 5, "Benefit"⟩]

/-- A square pairwise matrix containing the entry `0`. -/
def zeroEntryMatrix : Fin 2 → Fin 2 → ℝ := ![![1, 0], ![2, 1]]

/-- The reciprocal all-ones pairwise matrix. -/
def allOnesMatrix : Fin 2 → Fin 2 → ℝ := ![![1, 1], ![1, 1]]

/-- A weight tree whose two leaves `("A_B", "x")` and `("A", "B_x")`
compose to the same scenario-key string `A_B_x_...`. -/
def collideTree : WeightTree := [("A_B", [("x", 1)]), ("A", [("B_x", 1)])]

/-- A weight tree with one category holding two equal leaf weights. -/
def twoLeafTree : WeightTree := [("C", [("a", 1 / 2), ("b", 1 / 2)])]

/-- A dataset violating the at-most-one-observation invariant: region
`R1` carries two observations of the same criterion `(C, s)`. -/
def dupData : List Obs :=
  [⟨"R1", "C", "s", 9 / 10, "Benefit"⟩, ⟨"R1", "C", "s", 7 / 10, "Benefit"⟩,
   ⟨"R2", "C", "s", 1 / 2, "Benefit"⟩]

/-- Short name for the normalized literal-scenario dataset. -/
def dDN : List Obs :=
  [⟨"Region1", "C", "Distance", 1, "Cost"⟩,
   ⟨"Region2", "C", "Distance", 0, "Cost"⟩]

/-! ## Helper lemmas -/

theorem listMax_cons_cons (x y : ℝ) (t : List ℝ) :
    listMax (x :: y :: t) = max x (listMax (y :: t)) := rfl

theorem listMin_cons_cons (x y : ℝ) (t : List ℝ) :
    listMin (x :: y :: t) = min x (listMin (y :: t)) := rfl

theorem le_listMax {l : List ℝ} {x : ℝ} (hx : x ∈ l) : x ≤ listMax l := by
  induction l with
  | nil => cases hx
  | cons a t ih =>
    cases t with
    | nil =>
      rcases List.mem_singleton.mp hx with rfl
      exact le_of_eq rfl
    | cons b u =>
      rw [listMax_cons_cons]
      rcases List.mem_cons.mp hx with rfl | hmem
      · exact le_max_left _ _
      · exact le_trans (ih hmem) (le_max_right _ _)

theorem listMin_le {l : List ℝ} {x : ℝ} (hx : x ∈ l) : listMin l ≤ x := by
  induction l with
  | nil => cases hx
  | cons a t ih =>
    cases t with
    | nil =>
      rcases List.mem_singleton.mp hx with rfl
      exact le_of_eq rfl
    | cons b u =>
      rw [listMin_cons_cons]
      rcases List.mem_cons.mp hx with rfl | hmem
      · exact min_le_left _ _
      · exact le_trans (min_le_right _ _) (ih hmem)

theorem listMax_mem {l : List ℝ} (hl : l ≠ []) : listMax l ∈ l := by
  induction l with
  | nil => exact absurd rfl hl
  | cons a t ih =>
    cases t with
    | nil => exact List.mem_singleton.mpr rfl
    | cons b u =>
      rw [listMax_cons_cons]
      rcases max_cases a (listMax (b :: u)) with ⟨h, _⟩ | ⟨h, _⟩
      · rw [h]; exact List.mem_cons_self _ _
      · rw [h]; exact List.mem_cons_of_mem _ (ih (by simp))

theorem listMin_mem {l : List ℝ} (hl : l ≠ []) : listMin l ∈ l := by
  induction l with
  | nil => exact absurd rfl hl
  | cons a t ih =>
    cases t with
    | nil => exact List.mem_singleton.mpr rfl
    | cons b u =>
      rw [listMin_cons_cons]
      rcases min_cases a (listMin (b :: u)) with ⟨h, _⟩ | ⟨h, _⟩
      · rw [h]; exact List.mem_cons_self _ _
      · rw [h]; exact List.mem_cons_of_mem _ (ih (by simp))

theorem listMax_le {l : List ℝ} {b : ℝ} (hl : l ≠ []) (h : ∀ x ∈ l, x ≤ b) :
    listMax l ≤ b := h _ (listMax_mem hl)

theorem le_listMin {l : List ℝ} {b : ℝ} (hl : l ≠ []) (h : ∀ x ∈ l, b ≤ x) :
    b ≤ listMin l := h _ (listMin_mem hl)

theorem mem_insertLe {x y : String} {l : List String} :
    y ∈ insertLe x l ↔ y = x ∨ y ∈ l := by
  induction l with
  | nil => simp [insertLe]
  | cons a t ih =>
    by_cases h : x ≤ a
    · simp [insertLe, h]
    · simp only [insertLe, if_neg h, List.mem_cons, ih]
      tauto

theorem mem_sortLe {y : String} {l : List String} : y ∈ sortLe l ↔ y ∈ l := by
  induction l with
  | nil => simp [sortLe]
  | cons a t ih =>
    simp only [sortLe, List.foldr_cons] at *
    rw [mem_insertLe, ih, List.mem_cons]

theorem sorted_insertLe {x : String} {l : List String}
    (h : l.Pairwise (· ≤ ·)) : (insertLe x l).Pairwise (· ≤ ·) := by
  induction l with
  | nil => simp [insertLe]
  | cons a t ih =>
    rcases List.pairwise_cons.mp h with ⟨ha, ht⟩
    by_cases hxa : x ≤ a
    · rw [insertLe, if_pos hxa]
      exact List.pairwise_cons.mpr ⟨by
        intro b hb
        rcases List.mem_cons.mp hb with rfl | hbt
        · exact hxa
        · exact le_trans hxa (ha b hbt), h⟩
    · rw [insertLe, if_neg hxa]
      refine List.pairwise_cons.mpr ⟨?_, ih ht⟩
      intro b hb
      rcases mem_insertLe.mp hb with rfl | hbt
      · exact le_of_not_le hxa
      · exact ha b hbt

theorem sorted_sortLe (l : List String) : (sortLe l).Pairwise (· ≤ ·) := by
  induction l with
  | nil => simp [sortLe]
  | cons a t ih => exact sorted_insertLe ih


theorem real_beq_true {x y : ℝ} (h : x = y) : (x == y) = true := by
  simp [h]

theorem real_beq_false {x y : ℝ} (h : x ≠ y) : (x == y) = false := by
  simp [h]

/-! ## Evaluation of the two-region benefit scenario -/

theorem tR_cellA : pivotCell twoRegionData unitTree "A" ("C", "s") = 0 := by
  simp [pivotCell, twoRegionData, unitTree, weightOf]

theorem tR_cellB : pivotCell twoRegionData unitTree "B" ("C", "s") = 1 := by
  simp [pivotCell, twoRegionData, unitTree, weightOf]

theorem tR_regions : regionsOf twoRegionData = ["A", "B"] := by
  simp [regionsOf, twoRegionData, sortLe, insertLe]
  decide

theorem tR_keys : keysOf twoRegionData = [("C", "s")] := by
  simp [keysOf, twoRegionData]

theorem tR_ideal : ideal twoRegionData unitTree ("C", "s") = 1 := by
  rw [ideal, tR_regions]
  simp [listMax, tR_cellA, tR_cellB]

theorem tR_anti : antiIdeal twoRegionData unitTree ("C", "s") = 0 := by
  rw [antiIdeal, tR_regions]
  simp [listMin, tR_cellA, tR_cellB]

theorem tR_dIA : distIdeal twoRegionData unitTree "A" = 1 := by
  rw [distIdeal, tR_keys]
  simp [tR_cellA, tR_ideal]

theorem tR_dAA : distAnti twoRegionData unitTree "A" = 0 := by
  rw [distAnti, tR_keys]
  simp [tR_cellA, tR_anti]

theorem tR_dIB : distIdeal twoRegionData unitTree "B" = 0 := by
  rw [distIdeal, tR_keys]
  simp [tR_cellB, tR_ideal]

theorem tR_dAB : distAnti twoRegionData unitTree "B" = 1 := by
  rw [distAnti, tR_keys]
  simp [tR_cellB, tR_anti]

theorem tR_rawA : rawScore twoRegionData unitTree "A" = 0 := by
  rw [rawScore, tR_dIA, tR_dAA]
  norm_num

theorem tR_rawB : rawScore twoRegionData unitTree "B" = 1 := by
  rw [rawScore, tR_dIB, tR_dAB]
  norm_num

theorem tR_raws : rawScores twoRegionData unitTree = [0, 1] := by
  rw [rawScores, tR_regions]
  simp [tR_rawA, tR_rawB]

theorem tR_topsis :
    topsis twoRegionData unitTree = [("A", 1 / 100), ("B", 1)] := by
  rw [topsis, tR_regions]
  simp only [List.map_cons, List.map_nil, finalScore, tR_raws, tR_rawA, tR_rawB]
  norm_num [listMax, listMin]

/-! ## Evaluation of the literal `Distance` scenario -/

theorem dD_groupVals : groupValues distanceData "C" "Distance" = [10, 20] := by
  simp [groupValues, distanceData]

theorem dD_ctype : groupCtype distanceData "C" "Distance" = "Cost" := by
  simp [groupCtype, distanceData]

theorem strLower_cost : strLower "Cost" = "cost" := by decide

theorem dD_norm1 :
    normValue distanceData ⟨"Region1", "C", "Distance", 10, "Cost"⟩ = 1 := by
  rw [normValue]
  simp only [dD_groupVals, dD_ctype, strLower_cost]
  norm_num [listMax, listMin]

theorem dD_norm2 :
    normValue distanceData ⟨"Region2", "C", "Distance", 20, "Cost"⟩ = 0 := by
  rw [normValue]
  simp only [dD_groupVals, dD_ctype, strLower_cost]
  norm_num [listMax, listMin]

/-- The normalized form of the literal scenario's dataset. -/
theorem dD_normalized :
    min_max_normalize distanceData =
      [⟨"Region1", "C", "Distance", 1, "Cost"⟩,
       ⟨"Region2", "C", "Distance", 0, "Cost"⟩] := by
  rw [min_max_normalize]
  simp [distanceData]
  exact ⟨dD_norm1, dD_norm2⟩

theorem dDN_cell1 : pivotCell dDN distanceTree "Region1" ("C", "Distance") = 1 := by
  simp [pivotCell, dDN, distanceTree, weightOf]

theorem dDN_cell2 : pivotCell dDN distanceTree "Region2" ("C", "Distance") = 0 := by
  simp [pivotCell, dDN, distanceTree, weightOf]

theorem dDN_regions : regionsOf dDN = ["Region1", "Region2"] := by
  simp [regionsOf, dDN, sortLe, insertLe]
  decide

theorem dDN_keys : keysOf dDN = [("C", "Distance")] := by
  simp [keysOf, dDN]

theorem dDN_ideal : ideal dDN distanceTree ("C", "Distance") = 1 := by
  rw [ideal, dDN_regions]
  simp [listMax, dDN_cell1, dDN_cell2]

theorem dDN_anti : antiIdeal dDN distanceTree ("C", "Distance") = 0 := by
  rw [antiIdeal, dDN_regions]
  simp [listMin, dDN_cell1, dDN_cell2]

theorem dDN_raw1 : rawScore dDN distanceTree "Region1" = 1 := by
  rw [rawScore, distIdeal, distAnti, dDN_keys]
  simp [dDN_cell1, dDN_ideal, dDN_anti]

theorem dDN_raw2 : rawScore dDN distanceTree "Region2" = 0 := by
  rw [rawScore, distIdeal, distAnti, dDN_keys]
  simp [dDN_cell2, dDN_ideal, dDN_anti]

theorem dDN_raws : rawScores dDN distanceTree = [1, 0] := by
  rw [rawScores, dDN_regions]
  simp [dDN_raw1, dDN_raw2]

theorem dDN_topsis :
    topsis dDN distanceTree = [("Region1", 1), ("Region2", 1 / 100)] := by
  rw [topsis, dDN_regions]
  simp only [List.map_cons, List.map_nil, finalScore, dDN_raws, dDN_raw1, dDN_raw2]
  norm_num [listMax, listMin]

theorem dDN_sortGe : sortGe [1, 1 / 100] = [1, 1 / 100] := by
  rw [sortGe, List.foldr_cons, List.foldr_cons, List.foldr_nil, insertGe,
    insertGe, if_pos (show (1 : ℝ) / 100 < 1 by norm_num)]

theorem dDN_rank1 : rankMinDesc [1, 1 / 100] 1 = 1 := by
  rw [rankMinDesc, dDN_sortGe, List.indexOf, List.findIdx_cons,
    real_beq_true rfl]
  simp

theorem dDN_rank2 : rankMinDesc [1, 1 / 100] (1 / 100) = 2 := by
  rw [rankMinDesc, dDN_sortGe, List.indexOf, List.findIdx_cons,
    real_beq_false (show (1 : ℝ) ≠ 1 / 100 by norm_num), List.findIdx_cons,
    real_beq_true rfl]
  simp

/-! ## Evaluation of the symmetric two-criterion scenario (equal raw
closeness coefficients) -/

theorem sD_regions : regionsOf symData = ["A", "B"] := by
  simp [regionsOf, symData, sortLe, insertLe]
  decide

theorem sD_keys : keysOf symData = [("C", "s1"), ("C", "s2")] := by
  simp [keysOf, symData]

theorem sD_cellA1 : pivotCell symData symTree "A" ("C", "s1") = 1 := by
  simp [pivotCell, symData, symTree, weightOf, List.lookup]

theorem sD_cellA2 : pivotCell symData symTree "A" ("C", "s2") = 0 := by
  simp [pivotCell, symData, symTree, weightOf, List.lookup]

theorem sD_cellB1 : pivotCell symData symTree "B" ("C", "s1") = 0 := by
  simp [pivotCell, symData, symTree, weightOf, List.lookup]

theorem sD_cellB2 : pivotCell symData symTree "B" ("C", "s2") = 1 := by
  simp [pivotCell, symData, symTree, weightOf, List.lookup]

theorem sD_ideal1 : ideal symData symTree ("C", "s1") = 1 := by
  rw [ideal, sD_regions]
  simp [listMax, sD_cellA1, sD_cellB1]

theorem sD_ideal2 : ideal symData symTree ("C", "s2") = 1 := by
  rw [ideal, sD_regions]
  simp [listMax, sD_cellA2, sD_cellB2]

theorem sD_anti1 : antiIdeal symData symTree ("C", "s1") = 0 := by
  rw [antiIdeal, sD_regions]
  simp [listMin, sD_cellA1, sD_cellB1]

theorem sD_anti2 : antiIdeal symData symTree ("C", "s2") = 0 := by
  rw [antiIdeal, sD_regions]
  simp [listMin, sD_cellA2, sD_cellB2]

theorem sD_rawA : rawScore symData symTree "A" = 1 / 2 := by
  rw [rawScore, distIdeal, distAnti, sD_keys]
  simp only [List.map_cons, List.map_nil, List.sum_cons, List.sum_nil,
    sD_cellA1, sD_cellA2, sD_ideal1, sD_ideal2, sD_anti1, sD_anti2]
  norm_num

theorem sD_rawB : rawScore symData symTree "B" = 1 / 2 := by
  rw [rawScore, distIdeal, distAnti, sD_keys]
  simp only [List.map_cons, List.map_nil, List.sum_cons, List.sum_nil,
    sD_cellB1, sD_cellB2, sD_ideal1, sD_ideal2, sD_anti1, sD_anti2]
  norm_num

theorem sD_raws : rawScores symData symTree = [1 / 2, 1 / 2] := by
  rw [rawScores, sD_regions]
  simp [sD_rawA, sD_rawB]

/-- With all raw closeness coefficients equal the rescale denominator
`max(s) - min(s)` is `0`. -/
theorem sD_denom_zero :
    listMax (rawScores symData symTree) - listMin (rawScores symData symTree) = 0 := by
  rw [sD_raws]
  norm_num [listMax, listMin]

theorem sD_topsis :
    topsis symData symTree = [("A", 1 / 100), ("B", 1 / 100)] := by
  rw [topsis, sD_regions]
  simp only [List.map_cons, List.map_nil, finalScore, sD_raws, sD_rawA, sD_rawB]
  norm_num [listMax, listMin]

/-! ## Evaluation of the duplicate-observation dataset -/

theorem dup_regions : regionsOf dupData = ["R1", "R2"] := by
  simp [regionsOf, dupData, sortLe, insertLe]
  decide

theorem dup_keys : keysOf dupData = [("C", "s")] := by
  simp [keysOf, dupData]

/-- The two duplicate `R1` observations are summed into one pivot cell:
`0.9 + 0.7 = 1.6`. -/
theorem dup_cell : pivotCell dupData unitTree "R1" ("C", "s") = 8 / 5 := by
  simp [pivotCell, dupData, unitTree, weightOf]
  norm_num

theorem dup_cell2 : pivotCell dupData unitTree "R2" ("C", "s") = 1 / 2 := by
  simp [pivotCell, dupData, unitTree, weightOf]

/-- The summed cell feeds the ideal vector unchanged. -/
theorem dup_ideal : ideal dupData unitTree ("C", "s") = 8 / 5 := by
  rw [ideal, dup_regions]
  simp [listMax, dup_cell, dup_cell2]
  norm_num

/-! ## AHP facts -/

theorem geomMeans_pos {n : ℕ} (a : Fin n → Fin n → ℝ)
    (hpos : ∀ i j, 0 < a i j) (i : Fin n) : 0 < geomMeans a i :=
  Real.rpow_pos_of_pos (Finset.prod_pos fun j _ => hpos i j) _

theorem geomMeans_sum_pos {n : ℕ} (a : Fin n → Fin n → ℝ) (hn : 0 < n)
    (hpos : ∀ i j, 0 < a i j) : 0 < ∑ j, geomMeans a j :=
  Finset.sum_pos (fun i _ => geomMeans_pos a hpos i)
    ⟨⟨0, hn⟩, Finset.mem_univ _⟩

/-- C2: for every pairwise comparison matrix (nonempty: it is indexed by
its items) with strictly positive, approximately reciprocal entries,
`ahp_weights` returns nonnegative weights summing to `1.0` within
`1e-9` (exactly, in real arithmetic), and an `n = 1` matrix yields the
weight `1.0`. -/
theorem ahp_weights_nonneg_sum_one {n : ℕ} (a : Fin n → Fin n → ℝ)
    (hn : 0 < n) (hpos : ∀ i j, 0 < a i j)
    (hrec : ∀ i j, |a i j - 1 / a j i| ≤ 1 / 100) :
    (∀ i, 0 ≤ ahpWeights a i) ∧
      |(∑ i, ahpWeights a i) - 1| ≤ 1 / 1000000000 ∧
      (n = 1 → ∀ i, ahpWeights a i = 1) := by
  have hg := geomMeans_pos a hpos
  have hS := geomMeans_sum_pos a hn hpos
  refine ⟨fun i => div_nonneg (hg i).le hS.le, ?_, ?_⟩
  · have hsum : (∑ i, ahpWeights a i) = 1 := by
      simp only [ahpWeights]
      rw [← Finset.sum_div]
      exact div_self hS.ne'
    rw [hsum]
    norm_num
  · intro h1
    subst h1
    intro i
    have hi : i = 0 := Subsingleton.elim i 0
    rw [ahpWeights, Fin.sum_univ_one, hi]
    exact div_self (hg 0).ne'

/-- Witness for C2 at the reciprocal all-ones 2×2 matrix. -/
theorem ahp_weights_nonneg_sum_one_witness :
    (0 < 2) ∧ (∀ i j, 0 < allOnesMatrix i j) ∧
      (∀ i j, |allOnesMatrix i j - 1 / allOnesMatrix j i| ≤ 1 / 100) ∧
      (∀ i, 0 ≤ ahpWeights allOnesMatrix i) ∧
      |(∑ i, ahpWeights allOnesMatrix i) - 1| ≤ 1 / 1000000000 := by
  have hpos : ∀ i j, 0 < allOnesMatrix i j := by
    intro i j
    fin_cases i <;> fin_cases j <;> norm_num [allOnesMatrix]
  have hrec : ∀ i j, |allOnesMatrix i j - 1 / allOnesMatrix j i| ≤ 1 / 100 := by
    intro i j
    fin_cases i <;> fin_cases j <;> norm_num [allOnesMatrix]
  have h := ahp_weights_nonneg_sum_one allOnesMatrix (by norm_num) hpos hrec
  exact ⟨by norm_num, hpos, hrec, h.1, h.2.1⟩

/-- C3 (counterexample): for the square matrix `[[1,0],[2,1]]`, whose
entry `(0,1)` is `0 ≤ 0`, `ahp_weights` raises nothing (for a square
matrix the NumPy pipeline cannot raise; a failed reciprocity check only
prints a warning) and returns the weight mapping `{0 ↦ 0, 1 ↦ 1}`. -/
theorem ahp_weights_zero_entry_returns_weights :
    zeroEntryMatrix 0 1 = 0 ∧
      ahpWeights zeroEntryMatrix 0 = 0 ∧ ahpWeights zeroEntryMatrix 1 = 1 := by
  have hz : zeroEntryMatrix 0 0 * zeroEntryMatrix 0 1 = 0 := by
    norm_num [zeroEntryMatrix]
  have ht : zeroEntryMatrix 1 0 * zeroEntryMatrix 1 1 = 2 := by
    norm_num [zeroEntryMatrix]
  have hg0 : geomMeans zeroEntryMatrix 0 = 0 := by
    rw [geomMeans, Fin.prod_univ_two, hz, Real.zero_rpow (by norm_num)]
  have hg1 : geomMeans zeroEntryMatrix 1 = (2 : ℝ) ^ ((1 : ℝ) / 2) := by
    rw [geomMeans, Fin.prod_univ_two, ht]
    norm_num
  have h2 : (0 : ℝ) < (2 : ℝ) ^ ((1 : ℝ) / 2) :=
    Real.rpow_pos_of_pos (by norm_num) _
  refine ⟨by norm_num [zeroEntryMatrix], ?_, ?_⟩
  · rw [ahpWeights, hg0, zero_div]
  · rw [ahpWeights, Fin.sum_univ_two, hg0, hg1, zero_add]
    exact div_self h2.ne'

/-- C3 (amended): `ahp_weights` performs no positivity validation; a
square matrix with nonnegative entries and a zero entry in row `i` (and
some all-positive row, so the normalizing sum is positive) is processed
by the geometric-mean formula and yields weight `0` for row `i` instead
of any failure. -/
theorem ahp_weights_zero_entry_weight_zero {n : ℕ} (a : Fin n → Fin n → ℝ)
    (i j : Fin n) (hnn : ∀ p q, 0 ≤ a p q) (hz : a i j = 0)
    (hr : ∃ r, ∀ q, 0 < a r q) : ahpWeights a i = 0 := by
  have hprod : (∏ q, a i q) = 0 :=
    Finset.prod_eq_zero (Finset.mem_univ j) hz
  have hgi : geomMeans a i = 0 := by
    rw [geomMeans, hprod, Real.zero_rpow]
    have := i.pos
    positivity
  rw [ahpWeights, hgi, zero_div]

/-- Witness for the amended C3 at the matrix `[[1,0],[2,1]]`. -/
theorem ahp_weights_zero_entry_weight_zero_witness :
    (∀ p q, 0 ≤ zeroEntryMatrix p q) ∧ zeroEntryMatrix 0 1 = 0 ∧
      (∃ r, ∀ q, 0 < zeroEntryMatrix r q) ∧ ahpWeights zeroEntryMatrix 0 = 0 := by
  have hnn : ∀ p q, 0 ≤ zeroEntryMatrix p q := by
    intro p q
    fin_cases p <;> fin_cases q <;> norm_num [zeroEntryMatrix]
  have hz : zeroEntryMatrix 0 1 = 0 := by norm_num [zeroEntryMatrix]
  have hr : ∃ r, ∀ q, 0 < zeroEntryMatrix r q := by
    refine ⟨1, fun q => ?_⟩
    fin_cases q <;> norm_num [zeroEntryMatrix]
  exact ⟨hnn, hz, hr, ahp_weights_zero_entry_weight_zero zeroEntryMatrix 0 1 hnn hz hr⟩

/-- C4: every value produced by `min_max_normalize` lies in `[0, 1]`,
and a `(category, sub-category)` group with `max == min` normalizes to
exactly `1.0` for each of its rows. -/
theorem min_max_normalize_range (data : List Obs) (o : Obs) (ho : o ∈ data) :
    ({ o with value := normValue data o } ∈ min_max_normalize data) ∧
      (0 ≤ normValue data o ∧ normValue data o ≤ 1) ∧
      (listMax (groupValues data o.category o.subCategory) =
          listMin (groupValues data o.category o.subCategory) →
        normValue data o = 1) := by
  have hv : o.value ∈ groupValues data o.category o.subCategory := by
    refine List.mem_map_of_mem _ (List.mem_filter.mpr ⟨ho, ?_⟩)
    simp
  have hm := listMin_le hv
  have hM := le_listMax hv
  refine ⟨List.mem_map_of_mem _ ho, ?_, fun hMm => by rw [normValue, if_pos hMm]⟩
  rw [normValue]
  by_cases hMm : listMax (groupValues data o.category o.subCategory) =
      listMin (groupValues data o.category o.subCategory)
  · rw [if_pos hMm]
    norm_num
  · rw [if_neg hMm]
    have hlt : listMin (groupValues data o.category o.subCategory) <
        listMax (groupValues data o.category o.subCategory) :=
      lt_of_le_of_ne (le_trans hm hM) (Ne.symm hMm)
    have hdpos : 0 < listMax (groupValues data o.category o.subCategory) -
        listMin (groupValues data o.category o.subCategory) := by linarith
    by_cases hc : strLower (groupCtype data o.category o.subCategory) = "cost"
    · rw [if_pos hc]
      constructor
      · exact div_nonneg (by linarith) hdpos.le
      · rw [div_le_one hdpos]
        linarith
    · rw [if_neg hc]
      constructor
      · exact div_nonneg (by linarith) hdpos.le
      · rw [div_le_one hdpos]
        linarith

/-- Witness for C4 at a constant-valued group. -/
theorem min_max_normalize_range_witness :
    ((⟨"A", "C", "s", 5, "Benefit"⟩ : Obs) ∈ constData) ∧
      (0 ≤ normValue constData ⟨"A", "C", "s", 5, "Benefit"⟩ ∧
        normValue constData ⟨"A", "C", "s", 5, "Benefit"⟩ ≤ 1) ∧
      (listMax (groupValues constData "C" "s") =
          listMin (groupValues constData "C" "s") →
        normValue constData ⟨"A", "C", "s", 5, "Benefit"⟩ = 1) := by
  have ho : (⟨"A", "C", "s", 5, "Benefit"⟩ : Obs) ∈ constData := by
    simp [constData]
  have h := min_max_normalize_range constData ⟨"A", "C", "s", 5, "Benefit"⟩ ho
  exact ⟨ho, h.2.1, h.2.2⟩

/-- C6: in the literal scenario (cost criterion `Distance`, raw values
`10` and `20`), the Normalizer yields `1.0` and `0.0`; with weight `1.0`
TOPSIS yields scores `1.0` and `0.01`, and the pipeline's rank step
(`rank(ascending=False, method="min")`, applied by the visualiser since
`topsis` emits no rank column) yields ranks `1` and `2`. -/
theorem distance_scenario_scores_and_ranks :
    min_max_normalize distanceData = dDN ∧
      topsis dDN distanceTree = [("Region1", 1), ("Region2", 1 / 100)] ∧
      rankMinDesc ((topsis dDN distanceTree).map Prod.snd) 1 = 1 ∧
      rankMinDesc ((topsis dDN distanceTree).map Prod.snd) (1 / 100) = 2 := by
  have hs : (topsis dDN distanceTree).map Prod.snd = [1, 1 / 100] := by
    rw [dDN_topsis]
    simp
  exact ⟨dD_normalized, dDN_topsis, by rw [hs]; exact dDN_rank1,
    by rw [hs]; exact dDN_rank2⟩

/-- C1 (code evaluated at the failing input): on `symData` every raw
closeness coefficient equals `1/2`, so `scores.max() - scores.min() = 0`
and the unguarded rescale `(s - min) / (max - min)` divides zero by
zero — in NumPy every region's score becomes `NaN`, not the mandated
constant `1.0` (the embedding's total division renders the quotient `0`,
hence the `ε = 0.01` offset below; under no reading does the code emit
`1.0`). -/
theorem topsis_equal_raw_scores_no_constant_fallback :
    rawScores symData symTree = [1 / 2, 1 / 2] ∧
      listMax (rawScores symData symTree) -
          listMin (rawScores symData symTree) = 0 ∧
      topsis symData symTree = [("A", 1 / 100), ("B", 1 / 100)] ∧
      (1 / 100 : ℝ) ≠ 1 :=
  ⟨sD_raws, sD_denom_zero, sD_topsis, by norm_num⟩

/-- C10: `topsis` does not reject a dataset violating the
one-observation-per-(region, category, sub-category) invariant: the
pivot (`aggfunc='sum'`) adds the duplicate weighted values into one
cell (`0.9 + 0.7 = 1.6 > 1`), the summed cell feeds the ideal vector,
and both regions are scored. -/
theorem topsis_duplicate_observations_summed :
    pivotCell dupData unitTree "R1" ("C", "s") = 8 / 5 ∧ (1 : ℝ) < 8 / 5 ∧
      ideal dupData unitTree ("C", "s") = 8 / 5 ∧
      (topsis dupData unitTree).map Prod.fst = ["R1", "R2"] := by
  refine ⟨dup_cell, by norm_num, dup_ideal, ?_⟩
  rw [topsis, dup_regions]
  simp

/-- C5 (counterexample): `topsis` returns `["Region", "TOPSIS Score"]`
pairs in ascending region-name order with no rank column; on
`twoRegionData` the first row's score `0.01` is smaller than the second
row's `1`, so the output is not ordered by descending final score. -/
theorem topsis_output_not_sorted_by_score :
    topsis twoRegionData unitTree = [("A", 1 / 100), ("B", 1)] ∧
      (1 / 100 : ℝ) < 1 :=
  ⟨tR_topsis, by norm_num⟩

/-! ## Minimum-rank characterization of the descending sort -/

theorem countP_insertGe (x : ℝ) (l : List ℝ) (p : ℝ → Bool) :
    (insertGe x l).countP p = ((x :: l).countP p) := by
  induction l with
  | nil => rfl
  | cons a t ih =>
    rw [insertGe]
    by_cases h : a < x
    · rw [if_pos h]
    · rw [if_neg h, List.countP_cons, ih, List.countP_cons, List.countP_cons,
        List.countP_cons]
      omega

theorem mem_insertGe {x y : ℝ} {l : List ℝ} :
    y ∈ insertGe x l ↔ y = x ∨ y ∈ l := by
  induction l with
  | nil => simp [insertGe]
  | cons a t ih =>
    by_cases h : a < x
    · simp [insertGe, h]
    · simp only [insertGe, if_neg h, List.mem_cons, ih]
      tauto

theorem mem_sortGe {y : ℝ} {l : List ℝ} : y ∈ sortGe l ↔ y ∈ l := by
  induction l with
  | nil => simp [sortGe]
  | cons a t ih =>
    simp only [sortGe, List.foldr_cons] at *
    rw [mem_insertGe, ih, List.mem_cons]

theorem countP_sortGe (l : List ℝ) (p : ℝ → Bool) :
    (sortGe l).countP p = l.countP p := by
  induction l with
  | nil => rfl
  | cons a t ih =>
    simp only [sortGe, List.foldr_cons] at *
    rw [countP_insertGe, List.countP_cons, List.countP_cons, ih]

theorem sorted_insertGe {x : ℝ} {l : List ℝ}
    (h : l.Pairwise (fun a b => b ≤ a)) :
    (insertGe x l).Pairwise (fun a b => b ≤ a) := by
  induction l with
  | nil => simp [insertGe]
  | cons a t ih =>
    rcases List.pairwise_cons.mp h with ⟨ha, ht⟩
    by_cases hax : a < x
    · rw [insertGe, if_pos hax]
      exact List.pairwise_cons.mpr ⟨by
        intro b hb
        rcases List.mem_cons.mp hb with rfl | hbt
        · exact hax.le
        · exact le_trans (ha b hbt) hax.le, h⟩
    · rw [insertGe, if_neg hax]
      refine List.pairwise_cons.mpr ⟨?_, ih ht⟩
      intro b hb
      rcases mem_insertGe.mp hb with rfl | hbt
      · exact le_of_not_lt hax
      · exact ha b hbt

theorem sorted_sortGe (l : List ℝ) :
    (sortGe l).Pairwise (fun a b => b ≤ a) := by
  induction l with
  | nil => simp [sortGe]
  | cons a t ih => exact sorted_insertGe ih

theorem indexOf_sorted_desc {s : List ℝ} (hs : s.Pairwise (fun a b => b ≤ a))
    {x : ℝ} (hx : x ∈ s) :
    s.indexOf x = s.countP (fun y => decide (x < y)) := by
  induction s with
  | nil => cases hx
  | cons a t ih =>
    rcases List.pairwise_cons.mp hs with ⟨ha, ht⟩
    by_cases hax : a = x
    · subst hax
      rw [List.indexOf_cons_self]
      symm
      rw [List.countP_eq_zero]
      intro y hy
      simp only [decide_eq_true_eq]
      rcases List.mem_cons.mp hy with rfl | hyt
      · exact lt_irrefl _
      · exact not_lt_of_le (ha y hyt)
    · have hxt : x ∈ t := by
        rcases List.mem_cons.mp hx with rfl | h
        · exact absurd rfl hax
        · exact h
      have hxa : x < a := lt_of_le_of_ne (ha x hxt) fun h => hax h.symm
      rw [List.indexOf_cons, real_beq_false hax, List.countP_cons]
      simp only [cond_false, decide_eq_true_eq, if_pos hxa]
      rw [ih ht hxt]

theorem countP_le_split (l : List ℝ) (x : ℝ) :
    l.countP (fun y => decide (x ≤ y)) =
      l.countP (fun y => decide (x < y)) +
        l.countP (fun y => decide (y = x)) := by
  induction l with
  | nil => rfl
  | cons a t ih =>
    rw [List.countP_cons, List.countP_cons, List.countP_cons, ih]
    rcases lt_trichotomy x a with h | h | h
    · rw [decide_eq_true h.le, decide_eq_true h, decide_eq_false h.ne']
      simp only [if_true, if_false, Bool.false_eq_true]
      omega
    · subst h
      rw [decide_eq_true (le_refl x), decide_eq_false (lt_irrefl x),
        decide_eq_true rfl]
      simp only [if_true, if_false, Bool.false_eq_true]
      omega
    · rw [decide_eq_false (not_le_of_lt h),
        decide_eq_false (fun hx2 => lt_asymm h hx2), decide_eq_false h.ne]
      simp only [if_true, if_false, Bool.false_eq_true]
      omega

theorem rankMinDesc_eq (scores : List ℝ) (x : ℝ) (hx : x ∈ scores) :
    rankMinDesc scores x = 1 + scores.countP (fun y => decide (x < y)) := by
  rw [rankMinDesc, indexOf_sorted_desc (sorted_sortGe scores) (mem_sortGe.mpr hx),
    countP_sortGe]
  omega

/-- C5 (amended): `topsis` returns `(region, score)` pairs ordered by
ascending region name (not by descending score, and with no rank
column); ranks are assigned downstream by the static visualiser with
`rank(ascending=False, method="min")`, under which every score's rank is
one plus the number of strictly greater scores — so tied scores share
the minimum rank of their group and the rank sequence skips ahead by the
tie-group size (rank + tie-size = 1 + number of scores ≥ it). -/
theorem topsis_region_order_and_min_rank (nd : List Obs) (w : WeightTree)
    (x : ℝ) (hx : x ∈ (topsis nd w).map Prod.snd) :
    ((topsis nd w).map Prod.fst).Pairwise (· ≤ ·) ∧
      rankMinDesc ((topsis nd w).map Prod.snd) x =
        1 + ((topsis nd w).map Prod.snd).countP (fun y => decide (x < y)) ∧
      rankMinDesc ((topsis nd w).map Prod.snd) x +
          ((topsis nd w).map Prod.snd).countP (fun y => decide (y = x)) =
        1 + ((topsis nd w).map Prod.snd).countP (fun y => decide (x ≤ y)) := by
  have hfst : (topsis nd w).map Prod.fst = regionsOf nd := by
    rw [topsis, List.map_map]
    exact List.map_id _
  refine ⟨?_, rankMinDesc_eq _ x hx, ?_⟩
  · rw [hfst, regionsOf]
    exact sorted_sortLe _
  · rw [rankMinDesc_eq _ x hx, countP_le_split]
    omega

/-- Witness for the amended C5 at the two-region scenario, score `1`. -/
theorem topsis_region_order_and_min_rank_witness :
    (1 : ℝ) ∈ (topsis twoRegionData unitTree).map Prod.snd ∧
      ((topsis twoRegionData unitTree).map Prod.fst).Pairwise (· ≤ ·) ∧
      rankMinDesc ((topsis twoRegionData unitTree).map Prod.snd) 1 =
        1 + ((topsis twoRegionData unitTree).map Prod.snd).countP
          (fun y => decide ((1 : ℝ) < y)) := by
  have hx : (1 : ℝ) ∈ (topsis twoRegionData unitTree).map Prod.snd := by
    rw [tR_topsis]
    simp
  have h := topsis_region_order_and_min_rank twoRegionData unitTree 1 hx
  exact ⟨hx, h.1, h.2.1⟩

/-! ## Dict and renormalization lemmas for the sensitivity analysis -/

theorem dictKeys_dictInsert_of_not_mem {α : Type} {m : List (String × α)}
    {k : String} (h : k ∉ dictKeys m) (v : α) :
    dictKeys (dictInsert m k v) = dictKeys m ++ [k] := by
  have hany : (m.any fun p => p.1 == k) = false := by
    rw [List.any_eq_false]
    intro p hp hbeq
    exact h (List.mem_map.mpr ⟨p, hp, by simpa using hbeq⟩)
  rw [dictInsert, if_neg (by rw [hany]; exact Bool.false_ne_true), dictKeys,
    List.map_append]
  rfl

theorem dictKeys_dictInsert_of_mem {α : Type} {m : List (String × α)}
    {k : String} (h : k ∈ dictKeys m) (v : α) :
    dictKeys (dictInsert m k v) = dictKeys m := by
  have hany : (m.any fun p => p.1 == k) = true := by
    rw [List.any_eq_true]
    rcases List.mem_map.mp h with ⟨p, hp, hpk⟩
    exact ⟨p, hp, by simp [hpk]⟩
  rw [dictInsert, if_pos hany, dictKeys, dictKeys, List.map_map]
  refine List.map_congr_left ?_
  intro p _
  by_cases hpk : p.1 = k
  · simp [hpk]
  · simp [hpk]

theorem mem_dictKeys_dictInsert_self {α : Type} (m : List (String × α))
    (k : String) (v : α) : k ∈ dictKeys (dictInsert m k v) := by
  by_cases h : k ∈ dictKeys m
  · rw [dictKeys_dictInsert_of_mem h]
    exact h
  · rw [dictKeys_dictInsert_of_not_mem h]
    simp

theorem mem_dictKeys_dictInsert_of_mem {α : Type} {m : List (String × α)}
    {j k : String} (h : j ∈ dictKeys m) (v : α) :
    j ∈ dictKeys (dictInsert m k v) := by
  by_cases hk : k ∈ dictKeys m
  · rw [dictKeys_dictInsert_of_mem hk]
    exact h
  · rw [dictKeys_dictInsert_of_not_mem hk]
    exact List.mem_append_left _ h

theorem list_sum_div (l : List ℝ) (b : ℝ) :
    (l.map fun x => x / b).sum = l.sum / b := by
  induction l with
  | nil => simp
  | cons a t ih => simp [ih, add_div]

theorem list_sum_mul_left (l : List ℝ) (b : ℝ) :
    (l.map fun x => b * x).sum = b * l.sum := by
  induction l with
  | nil => simp
  | cons a t ih => simp [ih, mul_add]

theorem bumped_snd (subs : List (String × ℝ)) (t : String) (factor : ℝ) :
    ((subs.map fun p => (p.1, if p.1 = t then p.2 * factor else p.2)).map (·.2)) =
      subs.map fun p => if p.1 = t then p.2 * factor else p.2 := by
  rw [List.map_map]
  rfl

theorem map_snd_pair_div (l : List (String × ℝ)) (S : ℝ) :
    ((l.map fun p => (p.1, p.2 / S)).map (·.2)).sum = (l.map (·.2)).sum / S := by
  induction l with
  | nil => simp
  | cons a tl ih =>
    simp only [List.map_cons, List.sum_cons]
    rw [ih, add_div]

theorem renormCat_eq_none_iff (subs : List (String × ℝ)) (t : String)
    (factor : ℝ) :
    renormCat subs t factor = none ↔
      ((subs.map fun p => if p.1 = t then p.2 * factor else p.2).sum) = 0 := by
  simp only [renormCat, bumped_snd]
  by_cases h : ((subs.map fun p => if p.1 = t then p.2 * factor else p.2).sum) = 0
  · simp [h]
  · simp [h]

theorem renormCat_snd_sum (subs : List (String × ℝ)) (t : String) (factor : ℝ)
    (hne : ((subs.map fun p => if p.1 = t then p.2 * factor else p.2).sum) ≠ 0) :
    (renormCat subs t factor).map (fun sp => (sp.map (·.2)).sum) = some 1 := by
  simp only [renormCat, bumped_snd]
  rw [if_neg hne]
  rw [Option.map_some']
  congr 1
  rw [map_snd_pair_div, bumped_snd]
  exact div_self hne

theorem bumped_sum_lower (subs : List (String × ℝ)) (t : String) (factor : ℝ)
    (hnn : ∀ p ∈ subs, 0 ≤ p.2) (hf : 9 / 10 ≤ factor) :
    (9 / 10) * (subs.map (·.2)).sum ≤
      (subs.map fun p => if p.1 = t then p.2 * factor else p.2).sum := by
  rw [← list_sum_mul_left ((subs.map (·.2))) (9 / 10)]
  rw [List.map_map]
  refine List.sum_le_sum ?_
  intro p hp
  by_cases hpt : p.1 = t
  · simp only [Function.comp, hpt, if_pos]
    calc 9 / 10 * p.2 ≤ factor * p.2 :=
          mul_le_mul_of_nonneg_right hf (hnn p hp)
      _ = p.2 * factor := mul_comm _ _
  · simp only [Function.comp, hpt, if_neg, if_false]
    nlinarith [hnn p hp]

theorem length_flatMap_pair {α : Type} (ls : List α) (f g : α → String) :
    (ls.flatMap fun l => [f l, g l]).length = 2 * ls.length := by
  induction ls with
  | nil => rfl
  | cons a t ih =>
    rw [List.flatMap_cons, List.length_append, ih]
    simp
    ring

theorem lookup_mem {α : Type} {w : List (String × α)} {c : String}
    {subs : α} (h : List.lookup c w = some subs) : (c, subs) ∈ w := by
  induction w with
  | nil => cases h
  | cons p t ih =>
    rw [List.lookup] at h
    by_cases hpc : c = p.1
    · rw [show (c == p.1) = true from beq_iff_eq.mpr hpc] at h
      simp only [Option.some.injEq] at h
      subst h
      subst hpc
      exact List.mem_cons_self _ _
    · rw [show (c == p.1) = false from beq_eq_false_iff_ne.mpr hpc] at h
      exact List.mem_cons_of_mem _ (ih h)

theorem lookup_of_fst_mem {α : Type} {w : List (String × α)} {c : String}
    {subs : α} (h : (c, subs) ∈ w) : ∃ s, List.lookup c w = some s := by
  induction w with
  | nil => cases h
  | cons p t ih =>
    rcases List.mem_cons.mp h with rfl | hmem
    · exact ⟨subs, by rw [List.lookup, show (c == c) = true from beq_iff_eq.mpr rfl]⟩
    · by_cases hpc : c = p.1
      · exact ⟨p.2, by rw [List.lookup, show (c == p.1) = true from beq_iff_eq.mpr hpc]⟩
      · rcases ih hmem with ⟨s, hs⟩
        exact ⟨s, by rw [List.lookup, show (c == p.1) = false from
          beq_eq_false_iff_ne.mpr hpc, hs]⟩

theorem perturbTree_eq_none_iff (w : WeightTree) (cat target : String)
    (factor : ℝ) :
    perturbTree w cat target factor = none ↔
      renormCat (catSubs w cat) target factor = none := by
  rw [perturbTree]
  cases renormCat (catSubs w cat) target factor <;> simp

/-- Under the weight-tree invariant every perturbed category total is at
least `9/10` of the old total `1`, so no renormalization divides by
zero. -/
theorem perturb_total_ne_zero {w : WeightTree}
    (hnn : ∀ p ∈ w, ∀ q ∈ p.2, 0 ≤ q.2)
    (hsum : ∀ p ∈ w, (p.2.map (·.2)).sum = 1) {c : String} (t : String)
    (hc : ∃ subs, (c, subs) ∈ w) {factor : ℝ} (hf : 9 / 10 ≤ factor) :
    renormCat (catSubs w c) t factor ≠ none := by
  rcases hc with ⟨subs, hcw⟩
  rcases lookup_of_fst_mem hcw with ⟨subs2, hlk⟩
  have hmem2 : (c, subs2) ∈ w := lookup_mem hlk
  have hcs : catSubs w c = subs2 := by rw [catSubs, hlk]; rfl
  intro hnone
  rw [renormCat_eq_none_iff, hcs] at hnone
  have h1 := bumped_sum_lower subs2 t factor (fun r hr => hnn _ hmem2 r hr) hf
  rw [hsum _ hmem2, hnone] at h1
  norm_num at h1

/-- Every leaf's scenarios succeed and the result-dict keys are exactly
the leaves' keys in order, provided no renormalization divides by zero
and the composed keys are distinct. -/
theorem sensitivityResults_some_keys (nd : List Obs) (w : WeightTree)
    (delta : ℝ) (ls : List (String × String))
    (acc : List (String × List (String × ℝ)))
    (hok : ∀ l ∈ ls, perturbTree w l.1 l.2 (1 + delta) ≠ none ∧
      perturbTree w l.1 l.2 (1 - delta) ≠ none)
    (h : (dictKeys acc ++ ls.flatMap fun l =>
        [scenarioKey l.1 l.2 "plus", scenarioKey l.1 l.2 "minus"]).Nodup) :
    ∃ results, sensitivityResults nd w delta ls acc = some results ∧
      dictKeys results = dictKeys acc ++ ls.flatMap fun l =>
        [scenarioKey l.1 l.2 "plus", scenarioKey l.1 l.2 "minus"] := by
  induction ls generalizing acc with
  | nil => exact ⟨acc, rfl, by simp⟩
  | cons l rest ih =>
    rcases hok l (List.mem_cons_self _ _) with ⟨hp, hm⟩
    rcases Option.ne_none_iff_exists'.mp hp with ⟨tp, htp⟩
    rcases Option.ne_none_iff_exists'.mp hm with ⟨tm, htm⟩
    rw [List.flatMap_cons] at h
    have h2 : ((dictKeys acc ++
        [scenarioKey l.1 l.2 "plus", scenarioKey l.1 l.2 "minus"]) ++
        rest.flatMap fun l =>
          [scenarioKey l.1 l.2 "plus", scenarioKey l.1 l.2 "minus"]).Nodup := by
      rw [List.append_assoc]
      simpa using h
    rw [List.nodup_append] at h
    have hkp : scenarioKey l.1 l.2 "plus" ∉ dictKeys acc := fun hin =>
      h.2.2 hin (by simp)
    have hne : scenarioKey l.1 l.2 "minus" ≠ scenarioKey l.1 l.2 "plus" := by
      have h3 := h.2.1
      simp only [List.cons_append, List.nodup_cons] at h3
      intro he
      exact h3.1 (by rw [← he]; simp)
    have hkm : scenarioKey l.1 l.2 "minus" ∉
        dictKeys (dictInsert acc (scenarioKey l.1 l.2 "plus") (topsis nd tp)) := by
      rw [dictKeys_dictInsert_of_not_mem hkp]
      intro hin
      rcases List.mem_append.mp hin with hin | hin
      · exact h.2.2 hin (by simp)
      · exact hne (List.mem_singleton.mp hin)
    rw [sensitivityResults, htp, htm]
    rcases ih (dictInsert
        (dictInsert acc (scenarioKey l.1 l.2 "plus") (topsis nd tp))
        (scenarioKey l.1 l.2 "minus") (topsis nd tm))
      (fun l2 hl2 => hok l2 (List.mem_cons_of_mem _ hl2)) (by
      rw [dictKeys_dictInsert_of_not_mem hkm, dictKeys_dictInsert_of_not_mem hkp]
      simpa [List.append_assoc] using h2) with ⟨results, hres, hkeys2⟩
    refine ⟨results, hres, ?_⟩
    rw [hkeys2, dictKeys_dictInsert_of_not_mem hkm,
      dictKeys_dictInsert_of_not_mem hkp]
    simp

/-- When the loop completes, every processed leaf's scenario keys are
present in the result dict (collisions only overwrite, never drop a
key). -/
theorem sensitivityResults_mem (nd : List Obs) (w : WeightTree) (delta : ℝ)
    (ls : List (String × String)) (acc : List (String × List (String × ℝ)))
    (results : List (String × List (String × ℝ))) (k : String)
    (h : sensitivityResults nd w delta ls acc = some results)
    (hk : k ∈ dictKeys acc ∨ ∃ l ∈ ls,
      k = scenarioKey l.1 l.2 "plus" ∨ k = scenarioKey l.1 l.2 "minus") :
    k ∈ dictKeys results := by
  induction ls generalizing acc with
  | nil =>
    rw [sensitivityResults] at h
    simp only [Option.some.injEq] at h
    subst h
    rcases hk with hk | ⟨l, hl, _⟩
    · exact hk
    · cases hl
  | cons l rest ih =>
    rw [sensitivityResults] at h
    rcases htp : perturbTree w l.1 l.2 (1 + delta) with _ | tp
    · rw [htp] at h
      cases h
    rcases htm : perturbTree w l.1 l.2 (1 - delta) with _ | tm
    · rw [htp, htm] at h
      cases h
    rw [htp, htm] at h
    refine ih _ h ?_
    rcases hk with hk | ⟨l2, hl2, hk2⟩
    · exact Or.inl (mem_dictKeys_dictInsert_of_mem
        (mem_dictKeys_dictInsert_of_mem hk _) _)
    · rcases List.mem_cons.mp hl2 with rfl | hrest
      · rcases hk2 with rfl | rfl
        · exact Or.inl (mem_dictKeys_dictInsert_of_mem
            (mem_dictKeys_dictInsert_self _ _ _) _)
        · exact Or.inl (mem_dictKeys_dictInsert_self _ _ _)
      · exact Or.inr ⟨l2, hrest, hk2⟩

/-- A zero renormalization total at any leaf aborts the loop: the
`ZeroDivisionError` propagates and no result dict is produced. -/
theorem sensitivityResults_none (nd : List Obs) (w : WeightTree) (delta : ℝ)
    (ls : List (String × String)) (acc : List (String × List (String × ℝ)))
    (h : ∃ l ∈ ls, perturbTree w l.1 l.2 (1 + delta) = none ∨
      perturbTree w l.1 l.2 (1 - delta) = none) :
    sensitivityResults nd w delta ls acc = none := by
  induction ls generalizing acc with
  | nil =>
    rcases h with ⟨l, hl, _⟩
    cases hl
  | cons l rest ih =>
    rcases h with ⟨l2, hl2, hk2⟩
    rcases List.mem_cons.mp hl2 with rfl | hrest
    · rw [sensitivityResults]
      rcases hk2 with hk2 | hk2
      · rw [hk2]
      · rw [hk2]
        rcases perturbTree w l2.1 l2.2 (1 + delta) with _ | tp <;> rfl
    · rw [sensitivityResults]
      rcases htp : perturbTree w l.1 l.2 (1 + delta) with _ | tp
      · rfl
      rcases htm : perturbTree w l.1 l.2 (1 - delta) with _ | tm
      · rfl
      exact ih _ ⟨l2, hrest, hk2⟩

/-- C7 (amended): with δ = 0.1, for every base weight tree whose
categories hold nonnegative weights summing to `1.0`, no
renormalization divides by zero, each plus/minus renormalization
succeeds with sibling weights summing to exactly `1.0` (hence within
`1e-9`), and the analysis completes with a result dict of exactly
`2 × (number of leaf weights)` entries (besides the separately returned
baseline) provided the composed key strings
`f"{category}_{sub_category}_{direction}"` are pairwise distinct —
names containing the `_` separator can collide, and colliding keys
overwrite. -/
theorem sensitivity_sibling_sums_and_entry_count (nd : List Obs)
    (w : WeightTree) (hnn : ∀ p ∈ w, ∀ q ∈ p.2, 0 ≤ q.2)
    (hsum : ∀ p ∈ w, (p.2.map (·.2)).sum = 1)
    (hkeys : ((treeLeaves w).flatMap fun l =>
        [scenarioKey l.1 l.2 "plus", scenarioKey l.1 l.2 "minus"]).Nodup) :
    (∀ p ∈ w, ∀ q ∈ p.2,
        (renormCat p.2 q.1 (1 + 1 / 10)).map
          (fun sp => (sp.map (·.2)).sum) = some 1 ∧
        (renormCat p.2 q.1 (1 - 1 / 10)).map
          (fun sp => (sp.map (·.2)).sum) = some 1) ∧
      (sensitivity_analysis nd w (1 / 10)).map (fun r => r.2.length) =
        some (2 * (treeLeaves w).length) := by
  have hpos : ∀ p ∈ w, ∀ (t : String), ∀ f : ℝ, 9 / 10 ≤ f →
      (p.2.map fun r => if r.1 = t then r.2 * f else r.2).sum ≠ 0 := by
    intro p hp t f hf h0
    have h1 := bumped_sum_lower p.2 t f (fun r hr => hnn p hp r hr) hf
    rw [hsum p hp, h0] at h1
    norm_num at h1
  constructor
  · intro p hp q hq
    exact ⟨renormCat_snd_sum _ _ _ (hpos p hp q.1 _ (by norm_num)),
      renormCat_snd_sum _ _ _ (hpos p hp q.1 _ (by norm_num))⟩
  · have hok : ∀ l ∈ treeLeaves w,
        perturbTree w l.1 l.2 (1 + 1 / 10) ≠ none ∧
        perturbTree w l.1 l.2 (1 - 1 / 10) ≠ none := by
      intro l hl
      rcases List.mem_flatMap.mp hl with ⟨p, hp, hq⟩
      rcases List.mem_map.mp hq with ⟨q, hq2, rfl⟩
      constructor
      · rw [Ne, perturbTree_eq_none_iff]
        exact perturb_total_ne_zero hnn hsum q.1 ⟨p.2, hp⟩ (by norm_num)
      · rw [Ne, perturbTree_eq_none_iff]
        exact perturb_total_ne_zero hnn hsum q.1 ⟨p.2, hp⟩ (by norm_num)
    rcases sensitivityResults_some_keys nd w (1 / 10) (treeLeaves w) [] hok
      (by simpa [dictKeys] using hkeys) with ⟨results, hres, hkeys2⟩
    rw [sensitivity_analysis, hres]
    have hlen : results.length = (dictKeys results).length :=
      (List.length_map _ _).symm
    rw [Option.map_some']
    rw [show ((topsis nd w, results).2.length = results.length) from rfl, hlen,
      hkeys2]
    simp only [dictKeys, List.map_nil, List.nil_append]
    rw [length_flatMap_pair]

/-- Witness for the amended C7 at a two-leaf tree without key
collisions. -/
theorem sensitivity_sibling_sums_and_entry_count_witness :
    (∀ p ∈ twoLeafTree, ∀ q ∈ p.2, 0 ≤ q.2) ∧
      (∀ p ∈ twoLeafTree, (p.2.map (·.2)).sum = 1) ∧
      ((treeLeaves twoLeafTree).flatMap fun l =>
        [scenarioKey l.1 l.2 "plus", scenarioKey l.1 l.2 "minus"]).Nodup ∧
      (sensitivity_analysis twoRegionData twoLeafTree (1 / 10)).map
          (fun r => r.2.length) =
        some (2 * (treeLeaves twoLeafTree).length) := by
  have hnn : ∀ p ∈ twoLeafTree, ∀ q ∈ p.2, 0 ≤ q.2 := by
    intro p hp q hq
    simp only [twoLeafTree, List.mem_singleton] at hp
    subst hp
    simp only [List.mem_cons, List.mem_singleton, List.not_mem_nil,
      or_false] at hq
    rcases hq with rfl | rfl <;> norm_num
  have hsum : ∀ p ∈ twoLeafTree, (p.2.map (·.2)).sum = 1 := by
    intro p hp
    simp only [twoLeafTree, List.mem_singleton] at hp
    subst hp
    norm_num
  have hkeys : ((treeLeaves twoLeafTree).flatMap fun l =>
      [scenarioKey l.1 l.2 "plus", scenarioKey l.1 l.2 "minus"]).Nodup := by
    simp [treeLeaves, twoLeafTree, scenarioKey]
  exact ⟨hnn, hsum, hkeys,
    (sensitivity_sibling_sums_and_entry_count twoRegionData twoLeafTree
      hnn hsum hkeys).2⟩

/-- C7 (counterexample): the tree `{A_B: {x: 1.0}, A: {B_x: 1.0}}`
satisfies the weight-tree invariant and has two leaf weights, but both
leaves compose to the same key strings `A_B_x_plus` / `A_B_x_minus`, so
the Python dict keeps `2` entries instead of `2 × 2 = 4`. -/
theorem sensitivity_key_collision_drops_entries :
    (∀ p ∈ collideTree, (p.2.map (·.2)).sum = 1) ∧
      (sensitivity_analysis twoRegionData collideTree (1 / 10)).map
          (fun r => r.2.length) = some 2 ∧
      2 * (treeLeaves collideTree).length = 4 ∧ (2 : ℕ) ≠ 4 := by
  refine ⟨?_, ?_, rfl, by norm_num⟩
  · intro p hp
    simp only [collideTree, List.mem_cons, List.mem_singleton,
      List.not_mem_nil, or_false] at hp
    rcases hp with rfl | rfl <;> norm_num
  · simp only [sensitivity_analysis, sensitivityResults, perturbTree,
      renormCat, catSubs, treeLeaves, collideTree, List.lookup,
      show (("A" : String) == "A_B") = false by decide,
      show (("A_B" : String) == "A_B") = true by decide,
      show (("A" : String) == "A") = true by decide,
      show scenarioKey "A_B" "x" "plus" = "A_B_x_plus" from rfl,
      show scenarioKey "A_B" "x" "minus" = "A_B_x_minus" from rfl,
      show scenarioKey "A" "B_x" "plus" = "A_B_x_plus" from rfl,
      show scenarioKey "A" "B_x" "minus" = "A_B_x_minus" from rfl,
      show ¬(("A" : String) = "A_B") by decide,
      show ¬(("A_B" : String) = "A") by decide]
    norm_num [dictInsert,
      show (("A_B_x_plus" : String) == "A_B_x_minus") = false by decide,
      show (("A_B_x_minus" : String) == "A_B_x_plus") = false by decide,
      show (("A_B_x_plus" : String) == "A_B_x_plus") = true by decide,
      show (("A_B_x_minus" : String) == "A_B_x_minus") = true by decide,
      show ¬(("A_B_x_plus" : String) = "A_B_x_minus") by decide,
      show ¬(("A_B_x_minus" : String) = "A_B_x_plus") by decide]

/-- C8 (amended): `sensitivity_analysis` has no RangeError and performs
no δ validation.  For δ ≥ 1 the minus scenario's pre-normalization
weight `w(1-δ)` is nonpositive, yet whenever the analysis returns at
all, every leaf's plus and minus score collections are present; and
when some leaf's renormalization total is exactly `0` (a nonpositive
denominator) the code fails not with the mandated RangeError but with
an uncaught `ZeroDivisionError`, aborting with no result. -/
theorem sensitivity_no_range_validation (nd : List Obs) (w : WeightTree)
    (delta : ℝ) (hd : 1 ≤ delta) (c : String) (subs : List (String × ℝ))
    (hc : (c, subs) ∈ w) (s : String) (v : ℝ) (hs : (s, v) ∈ subs)
    (hv : 0 ≤ v) :
    v * (1 - delta) ≤ 0 ∧
      (∀ res, sensitivity_analysis nd w delta = some res →
        scenarioKey c s "plus" ∈ dictKeys res.2 ∧
        scenarioKey c s "minus" ∈ dictKeys res.2) ∧
      ((∃ l ∈ treeLeaves w,
          renormCat (catSubs w l.1) l.2 (1 + delta) = none ∨
          renormCat (catSubs w l.1) l.2 (1 - delta) = none) →
        sensitivity_analysis nd w delta = none) := by
  have hleaf : (c, s) ∈ treeLeaves w :=
    List.mem_flatMap.mpr ⟨(c, subs), hc, List.mem_map.mpr ⟨(s, v), hs, rfl⟩⟩
  refine ⟨mul_nonpos_of_nonneg_of_nonpos hv (by linarith), ?_, ?_⟩
  · intro res hres
    rw [sensitivity_analysis] at hres
    rcases hloop : sensitivityResults nd w delta (treeLeaves w) [] with _ | results
    · rw [hloop] at hres
      cases hres
    · rw [hloop] at hres
      simp only [Option.some.injEq] at hres
      subst hres
      constructor
      · exact sensitivityResults_mem nd w delta _ [] results _ hloop
          (Or.inr ⟨(c, s), hleaf, Or.inl rfl⟩)
      · exact sensitivityResults_mem nd w delta _ [] results _ hloop
          (Or.inr ⟨(c, s), hleaf, Or.inr rfl⟩)
  · intro hzero
    have habort : sensitivityResults nd w delta (treeLeaves w) [] = none := by
      rcases hzero with ⟨l, hl, hz⟩
      refine sensitivityResults_none nd w delta _ [] ⟨l, hl, ?_⟩
      rcases hz with hz | hz
      · exact Or.inl ((perturbTree_eq_none_iff w l.1 l.2 _).mpr hz)
      · exact Or.inr ((perturbTree_eq_none_iff w l.1 l.2 _).mpr hz)
    rw [sensitivity_analysis, habort]

/-- Witness for the amended C8 at δ = 1 on the singleton-category tree
`{C: {s: 1.0}}`: the minus total is `1 · (1-1) = 0`, so the analysis
aborts with no result (Python: `ZeroDivisionError`). -/
theorem sensitivity_no_range_validation_witness :
    (1 : ℝ) ≤ 1 ∧ ("C", [("s", (1 : ℝ))]) ∈ unitTree ∧
      ("s", (1 : ℝ)) ∈ [("s", (1 : ℝ))] ∧ (0 : ℝ) ≤ 1 ∧
      (1 : ℝ) * (1 - 1) ≤ 0 ∧
      sensitivity_analysis twoRegionData unitTree 1 = none := by
  have hc : ("C", [("s", (1 : ℝ))]) ∈ unitTree := by simp [unitTree]
  have hs : ("s", (1 : ℝ)) ∈ [("s", (1 : ℝ))] := by simp
  have h := sensitivity_no_range_validation twoRegionData unitTree 1
    le_rfl "C" _ hc "s" 1 hs (by norm_num)
  refine ⟨le_rfl, hc, hs, by norm_num, h.1, ?_⟩
  refine h.2.2 ⟨("C", "s"), by simp [treeLeaves, unitTree], Or.inr ?_⟩
  rw [renormCat_eq_none_iff]
  norm_num [catSubs, unitTree, List.lookup,
    show (("C" : String) == "C") = true by decide]

/-- C8 (counterexample): at δ = 1 (where the spec mandates a RangeError)
`sensitivity_analysis` on the two-leaf tree raises nothing and returns
all four perturbed score collections. -/
theorem sensitivity_delta_one_still_scores :
    (sensitivity_analysis twoRegionData twoLeafTree 1).map
      (fun r => r.2.length) = some 4 := by
  simp only [sensitivity_analysis, sensitivityResults, perturbTree,
    renormCat, catSubs, treeLeaves, twoLeafTree, List.lookup,
    show (("C" : String) == "C") = true by decide,
    show scenarioKey "C" "a" "plus" = "C_a_plus" from rfl,
    show scenarioKey "C" "a" "minus" = "C_a_minus" from rfl,
    show scenarioKey "C" "b" "plus" = "C_b_plus" from rfl,
    show scenarioKey "C" "b" "minus" = "C_b_minus" from rfl,
    show ¬(("b" : String) = "a") by decide,
    show ¬(("a" : String) = "b") by decide]
  norm_num [dictInsert,
    show ¬(("b" : String) = "a") by decide,
    show ¬(("a" : String) = "b") by decide,
    show (("C_a_plus" : String) == "C_a_minus") = false by decide,
    show (("C_a_plus" : String) == "C_b_plus") = false by decide,
    show (("C_a_minus" : String) == "C_b_plus") = false by decide,
    show (("C_a_plus" : String) == "C_b_minus") = false by decide,
    show (("C_a_minus" : String) == "C_b_minus") = false by decide,
    show (("C_b_plus" : String) == "C_b_minus") = false by decide]

theorem listMax_map_mono {α : Type} {l : List α} {f g : α → ℝ}
    (hl : l ≠ []) (h : ∀ x ∈ l, f x ≤ g x) :
    listMax (l.map f) ≤ listMax (l.map g) := by
  have hne : l.map f ≠ [] := by simpa using hl
  rcases List.mem_map.mp (listMax_mem hne) with ⟨x, hx, hfx⟩
  rw [← hfx]
  exact le_trans (h x hx) (le_listMax (List.mem_map_of_mem _ hx))

theorem listMin_map_mono {α : Type} {l : List α} {f g : α → ℝ}
    (hl : l ≠ []) (h : ∀ x ∈ l, f x ≤ g x) :
    listMin (l.map f) ≤ listMin (l.map g) := by
  have hne : l.map g ≠ [] := by simpa using hl
  rcases List.mem_map.mp (listMin_mem hne) with ⟨x, hx, hgx⟩
  rw [← hgx]
  exact le_trans (listMin_le (List.mem_map_of_mem _ hx)) (h x hx)

theorem closeness_mono {dp dp' dm dm' : ℝ} (hdp' : 0 ≤ dp') (hdm : 0 ≤ dm)
    (h1 : dp' ≤ dp) (h2 : dm ≤ dm') (hpos : 0 < dp + dm)
    (hpos' : 0 < dp' + dm') :
    dm / (dp + dm) ≤ dm' / (dp' + dm') := by
  rw [div_le_div_iff hpos hpos']
  nlinarith

theorem rescale_mono (regions : List String) (r0 : String)
    (hr0 : r0 ∈ regions) (s s' : String → ℝ) (hup : s r0 ≤ s' r0)
    (hdown : ∀ r ∈ regions, r ≠ r0 → s' r ≤ s r)
    (hMm : listMin (regions.map s) < listMax (regions.map s))
    (hMm' : listMin (regions.map s') < listMax (regions.map s')) :
    (s r0 - listMin (regions.map s)) /
        (listMax (regions.map s) - listMin (regions.map s)) ≤
      (s' r0 - listMin (regions.map s')) /
        (listMax (regions.map s') - listMin (regions.map s')) := by
  have hne : regions ≠ [] := by rintro rfl; cases hr0
  have hD : 0 < listMax (regions.map s) - listMin (regions.map s) := by linarith
  have hD' : 0 < listMax (regions.map s') - listMin (regions.map s') := by linarith
  have hmem : s r0 ∈ regions.map s := List.mem_map_of_mem _ hr0
  have hmem' : s' r0 ∈ regions.map s' := List.mem_map_of_mem _ hr0
  have hsM : s r0 ≤ listMax (regions.map s) := le_listMax hmem
  have hms : listMin (regions.map s) ≤ s r0 := listMin_le hmem
  have hsM' : s' r0 ≤ listMax (regions.map s') := le_listMax hmem'
  have hms' : listMin (regions.map s') ≤ s' r0 := listMin_le hmem'
  by_cases htop : listMax (regions.map s') ≤ s' r0
  · -- r0 attains the new maximum: the right-hand side is 1
    have hEq : s' r0 = listMax (regions.map s') := le_antisymm hsM' htop
    rw [← hEq]
    calc (s r0 - listMin (regions.map s)) /
          (listMax (regions.map s) - listMin (regions.map s)) ≤ 1 := by
          rw [div_le_one hD]; linarith
      _ = (s' r0 - listMin (regions.map s')) / (s' r0 - listMin (regions.map s')) := by
          rw [div_self]
          rw [hEq]
          linarith
  · push_neg at htop
    -- the new maximum is attained by some other region, so it did not rise
    have hne' : regions.map s' ≠ [] := by simpa using hne
    rcases List.mem_map.mp (listMax_mem hne') with ⟨j, hj, hsj⟩
    have hjne : j ≠ r0 := by
      rintro rfl
      rw [hsj] at htop
      exact lt_irrefl _ htop
    have hM'le : listMax (regions.map s') ≤ listMax (regions.map s) := by
      rw [← hsj]
      exact le_trans (hdown j hj hjne) (le_listMax (List.mem_map_of_mem _ hj))
    by_cases hbot : s r0 ≤ listMin (regions.map s)
    · -- r0 attains the old minimum: the left-hand side is 0
      have h0 : s r0 - listMin (regions.map s) = 0 := by linarith
      rw [h0, zero_div]
      exact div_nonneg (by linarith) hD'.le
    · push_neg at hbot
      -- the old minimum is attained by some other region, so it did not rise
      have hnes : regions.map s ≠ [] := by simpa using hne
      rcases List.mem_map.mp (listMin_mem hnes) with ⟨i, hi, hsi⟩
      have hine : i ≠ r0 := by
        rintro rfl
        rw [hsi] at hbot
        exact lt_irrefl _ hbot
      have hm'le : listMin (regions.map s') ≤ listMin (regions.map s) := by
        rw [← hsi]
        exact le_trans (listMin_le (List.mem_map_of_mem _ hi)) (hdown i hi hine)
      -- abbreviations
      set m := listMin (regions.map s)
      set M := listMax (regions.map s)
      set m' := listMin (regions.map s')
      set M' := listMax (regions.map s')
      have hdel : 0 ≤ m - m' := by linarith
      have hN' : s r0 - m + (m - m') ≤ s' r0 - m' := by linarith
      have hDub : M' - m' ≤ M - m + (m - m') := by linarith
      calc (s r0 - m) / (M - m)
          ≤ (s r0 - m + (m - m')) / (M - m + (m - m')) := by
            rw [div_le_div_iff hD (by linarith)]
            nlinarith
        _ ≤ (s' r0 - m') / (M - m + (m - m')) :=
            (div_le_div_right (by linarith)).mpr hN'
        _ ≤ (s' r0 - m') / (M' - m') :=
            div_le_div_of_nonneg_left (by linarith) (by linarith) hDub

theorem sq_gap_grow {a b c : ℝ} (h1 : a ≤ b) (h2 : b ≤ c) :
    (a - b) ^ 2 ≤ (a - c) ^ 2 := by nlinarith

theorem sq_gap_shrink {a b c : ℝ} (h1 : b ≤ c) (h2 : c ≤ a) :
    (a - c) ^ 2 ≤ (a - b) ^ 2 := by nlinarith

theorem pivotCell_append (d1 d2 : List Obs) (w : WeightTree) (r : String)
    (k : String × String) :
    pivotCell (d1 ++ d2) w r k = pivotCell d1 w r k + pivotCell d2 w r k := by
  simp [pivotCell, List.filter_append]

theorem pivotCell_cons (x : Obs) (d : List Obs) (w : WeightTree) (r : String)
    (k : String × String) :
    pivotCell (x :: d) w r k =
      (if x.region == r && x.category == k.1 && x.subCategory == k.2
        then x.value * weightOf w x.category x.subCategory else 0) +
        pivotCell d w r k := by
  by_cases h : (x.region == r && x.category == k.1 && x.subCategory == k.2 : Bool)
  · simp [pivotCell, List.filter_cons, h]
  · simp [pivotCell, List.filter_cons, h]

theorem regionsOf_ne_nil {data : List Obs} {r : String}
    (h : r ∈ regionsOf data) : regionsOf data ≠ [] := by
  rintro he
  rw [he] at h
  cases h

theorem mem_regionsOf {data : List Obs} {o : Obs} (h : o ∈ data) :
    o.region ∈ regionsOf data := by
  rw [regionsOf, mem_sortLe, List.mem_dedup]
  exact List.mem_map_of_mem _ h

theorem cell_le_ideal {data : List Obs} {w : WeightTree} {r : String}
    (hr : r ∈ regionsOf data) (k : String × String) :
    pivotCell data w r k ≤ ideal data w k :=
  le_listMax (List.mem_map_of_mem _ hr)

theorem anti_le_cell {data : List Obs} {w : WeightTree} {r : String}
    (hr : r ∈ regionsOf data) (k : String × String) :
    antiIdeal data w k ≤ pivotCell data w r k :=
  listMin_le (List.mem_map_of_mem _ hr)

theorem ideal_le_of_cells_le {D D' : List Obs} {w : WeightTree}
    (hreg : regionsOf D' = regionsOf D) (hne : regionsOf D ≠ [])
    (hcell_le : ∀ r k, pivotCell D w r k ≤ pivotCell D' w r k)
    (k : String × String) : ideal D w k ≤ ideal D' w k := by
  rw [ideal, ideal, hreg]
  exact listMax_map_mono hne fun r _ => hcell_le r k

theorem anti_le_of_cells_le {D D' : List Obs} {w : WeightTree}
    (hreg : regionsOf D' = regionsOf D) (hne : regionsOf D ≠ [])
    (hcell_le : ∀ r k, pivotCell D w r k ≤ pivotCell D' w r k)
    (k : String × String) : antiIdeal D w k ≤ antiIdeal D' w k := by
  rw [antiIdeal, antiIdeal, hreg]
  exact listMin_map_mono hne fun r _ => hcell_le r k

theorem ideal_eq_of_cells_eq {D D' : List Obs} {w : WeightTree}
    (hreg : regionsOf D' = regionsOf D) (k : String × String)
    (h : ∀ r, pivotCell D' w r k = pivotCell D w r k) :
    ideal D' w k = ideal D w k := by
  rw [ideal, ideal, hreg]
  congr 1
  exact List.map_congr_left fun r _ => h r

theorem anti_eq_of_cells_eq {D D' : List Obs} {w : WeightTree}
    (hreg : regionsOf D' = regionsOf D) (k : String × String)
    (h : ∀ r, pivotCell D' w r k = pivotCell D w r k) :
    antiIdeal D' w k = antiIdeal D w k := by
  rw [antiIdeal, antiIdeal, hreg]
  congr 1
  exact List.map_congr_left fun r _ => h r

theorem distIdeal_other_ge {D D' : List Obs} {w : WeightTree} {r0 r : String}
    {k0 : String × String} (hr : r ∈ regionsOf D) (hrne : r ≠ r0)
    (hreg : regionsOf D' = regionsOf D) (hkeysEq : keysOf D' = keysOf D)
    (hcell_eq : ∀ r k, ¬(r = r0 ∧ k = k0) →
      pivotCell D' w r k = pivotCell D w r k)
    (hcell_le : ∀ r k, pivotCell D w r k ≤ pivotCell D' w r k) :
    distIdeal D w r ≤ distIdeal D' w r := by
  rw [distIdeal, distIdeal, hkeysEq]
  refine Real.sqrt_le_sqrt (List.sum_le_sum ?_)
  intro k _
  rw [hcell_eq r k (fun h => hrne h.1)]
  exact sq_gap_grow (cell_le_ideal hr k)
    (ideal_le_of_cells_le hreg (regionsOf_ne_nil hr) hcell_le k)

theorem distAnti_other_le {D D' : List Obs} {w : WeightTree} {r0 r : String}
    {k0 : String × String} (hr : r ∈ regionsOf D) (hrne : r ≠ r0)
    (hreg : regionsOf D' = regionsOf D) (hkeysEq : keysOf D' = keysOf D)
    (hcell_eq : ∀ r k, ¬(r = r0 ∧ k = k0) →
      pivotCell D' w r k = pivotCell D w r k)
    (hcell_le : ∀ r k, pivotCell D w r k ≤ pivotCell D' w r k) :
    distAnti D' w r ≤ distAnti D w r := by
  rw [distAnti, distAnti, hkeysEq]
  refine Real.sqrt_le_sqrt (List.sum_le_sum ?_)
  intro k _
  rw [hcell_eq r k (fun h => hrne h.1)]
  have hr' : r ∈ regionsOf D' := by rw [hreg]; exact hr
  have h1 : antiIdeal D w k ≤ antiIdeal D' w k :=
    anti_le_of_cells_le hreg (regionsOf_ne_nil hr) hcell_le k
  have h2 : antiIdeal D' w k ≤ pivotCell D w r k := by
    have h3 := anti_le_cell (w := w) hr' k
    rwa [hcell_eq r k (fun h => hrne h.1)] at h3
  exact sq_gap_shrink h1 h2

theorem distIdeal_r0_le {D D' : List Obs} {w : WeightTree} {r0 : String}
    {k0 : String × String} (hr0 : r0 ∈ regionsOf D)
    (hreg : regionsOf D' = regionsOf D) (hkeysEq : keysOf D' = keysOf D)
    (hcell_eq : ∀ r k, ¬(r = r0 ∧ k = k0) →
      pivotCell D' w r k = pivotCell D w r k)
    (hcell_le : ∀ r k, pivotCell D w r k ≤ pivotCell D' w r k) :
    distIdeal D' w r0 ≤ distIdeal D w r0 := by
  rw [distIdeal, distIdeal, hkeysEq]
  refine Real.sqrt_le_sqrt (List.sum_le_sum ?_)
  intro k _
  by_cases hk : k = k0
  · subst hk
    have hr0' : r0 ∈ regionsOf D' := by rw [hreg]; exact hr0
    have hab : pivotCell D w r0 k ≤ pivotCell D' w r0 k := hcell_le r0 k
    have haI : pivotCell D w r0 k ≤ ideal D w k := cell_le_ideal hr0 k
    have hbI' : pivotCell D' w r0 k ≤ ideal D' w k := cell_le_ideal hr0' k
    have hI'ub : ideal D' w k ≤ max (ideal D w k) (pivotCell D' w r0 k) := by
      rw [ideal, hreg]
      refine listMax_le (by simpa using regionsOf_ne_nil hr0) ?_
      intro x hx
      rcases List.mem_map.mp hx with ⟨r, hrmem, rfl⟩
      by_cases hrr : r = r0
      · subst hrr
        exact le_max_right _ _
      · rw [hcell_eq r k (fun h => hrr h.1)]
        exact le_trans (cell_le_ideal hrmem k) (le_max_left _ _)
    have h6 : ideal D' w k - pivotCell D' w r0 k ≤
        ideal D w k - pivotCell D w r0 k := by
      rcases le_total (ideal D w k) (pivotCell D' w r0 k) with h | h
      · have : ideal D' w k ≤ pivotCell D' w r0 k := by
          rw [max_eq_right h] at hI'ub
          exact hI'ub
        linarith
      · have : ideal D' w k ≤ ideal D w k := by
          rw [max_eq_left h] at hI'ub
          exact hI'ub
        linarith
    have h7 : 0 ≤ ideal D' w k - pivotCell D' w r0 k := by linarith
    nlinarith
  · rw [hcell_eq r0 k (fun h => hk h.2),
      ideal_eq_of_cells_eq hreg k (fun r => hcell_eq r k (fun h => hk h.2))]

theorem distAnti_r0_ge {D D' : List Obs} {w : WeightTree} {r0 : String}
    {k0 : String × String} (hr0 : r0 ∈ regionsOf D)
    (hreg : regionsOf D' = regionsOf D) (hkeysEq : keysOf D' = keysOf D)
    (hcell_eq : ∀ r k, ¬(r = r0 ∧ k = k0) →
      pivotCell D' w r k = pivotCell D w r k)
    (hcell_le : ∀ r k, pivotCell D w r k ≤ pivotCell D' w r k) :
    distAnti D w r0 ≤ distAnti D' w r0 := by
  rw [distAnti, distAnti, hkeysEq]
  refine Real.sqrt_le_sqrt (List.sum_le_sum ?_)
  intro k _
  by_cases hk : k = k0
  · subst hk
    have hr0' : r0 ∈ regionsOf D' := by rw [hreg]; exact hr0
    have hab : pivotCell D w r0 k ≤ pivotCell D' w r0 k := hcell_le r0 k
    have hAa : antiIdeal D w k ≤ pivotCell D w r0 k := anti_le_cell hr0 k
    have hA'b : antiIdeal D' w k ≤ pivotCell D' w r0 k := anti_le_cell hr0' k
    have h6 : pivotCell D w r0 k - antiIdeal D w k ≤
        pivotCell D' w r0 k - antiIdeal D' w k := by
      by_cases hAv : antiIdeal D w k = pivotCell D w r0 k
      · rw [hAv]
        linarith
      · have hmem : antiIdeal D w k ∈
            (regionsOf D).map fun r => pivotCell D w r k := by
          rw [antiIdeal]
          exact listMin_mem (by simpa using regionsOf_ne_nil hr0)
        rcases List.mem_map.mp hmem with ⟨rr, hrr, hval⟩
        have hrrne : rr ≠ r0 := by
          rintro rfl
          exact hAv hval.symm
        have hA'A : antiIdeal D' w k ≤ antiIdeal D w k := by
          rw [← hval]
          have h8 : antiIdeal D' w k ≤ pivotCell D' w rr k :=
            anti_le_cell (by rw [hreg]; exact hrr) k
          rwa [hcell_eq rr k (fun h => hrrne h.1)] at h8
        linarith
    nlinarith
  · rw [hcell_eq r0 k (fun h => hk h.2),
      anti_eq_of_cells_eq hreg k (fun r => hcell_eq r k (fun h => hk h.2))]

theorem finalScore_mono_core (D D' : List Obs) (w : WeightTree) (r0 : String)
    (k0 : String × String) (hr0 : r0 ∈ regionsOf D)
    (hreg : regionsOf D' = regionsOf D) (hkeysEq : keysOf D' = keysOf D)
    (hcell_eq : ∀ r k, ¬(r = r0 ∧ k = k0) →
      pivotCell D' w r k = pivotCell D w r k)
    (hcell_le : ∀ r k, pivotCell D w r k ≤ pivotCell D' w r k)
    (hd : ∀ r ∈ regionsOf D, 0 < distIdeal D w r + distAnti D w r)
    (hd' : ∀ r ∈ regionsOf D, 0 < distIdeal D' w r + distAnti D' w r)
    (hs : listMin (rawScores D w) < listMax (rawScores D w))
    (hs' : listMin (rawScores D' w) < listMax (rawScores D' w)) :
    finalScore D w r0 ≤ finalScore D' w r0 := by
  have hup : rawScore D w r0 ≤ rawScore D' w r0 := by
    rw [rawScore, rawScore]
    exact closeness_mono (Real.sqrt_nonneg _) (Real.sqrt_nonneg _)
      (distIdeal_r0_le hr0 hreg hkeysEq hcell_eq hcell_le)
      (distAnti_r0_ge hr0 hreg hkeysEq hcell_eq hcell_le)
      (hd r0 hr0) (hd' r0 hr0)
  have hdown : ∀ r ∈ regionsOf D, r ≠ r0 → rawScore D' w r ≤ rawScore D w r := by
    intro r hr hrne
    rw [rawScore, rawScore]
    exact closeness_mono (Real.sqrt_nonneg _) (Real.sqrt_nonneg _)
      (distIdeal_other_ge hr hrne hreg hkeysEq hcell_eq hcell_le)
      (distAnti_other_le hr hrne hreg hkeysEq hcell_eq hcell_le)
      (hd' r hr) (hd r hr)
  have hraw' : rawScores D' w = (regionsOf D).map (rawScore D' w) := by
    rw [rawScores, hreg]
  have hresc := rescale_mono (regionsOf D) r0 hr0 (rawScore D w) (rawScore D' w)
    hup hdown (by rw [rawScores] at hs; exact hs)
    (by rw [hraw'] at hs'; exact hs')
  rw [finalScore, finalScore, rawScores, hraw']
  rw [rawScores] at *
  have h99 : (0 : ℝ) ≤ 1 - 1 / 100 := by norm_num
  exact add_le_add_right (mul_le_mul_of_nonneg_right hresc h99) _

theorem update_regions (pre post : List Obs) (o : Obs) (v' : ℝ) :
    regionsOf (pre ++ { o with value := v' } :: post) =
      regionsOf (pre ++ o :: post) := by
  rw [regionsOf, regionsOf]
  congr 2
  simp

theorem update_keys (pre post : List Obs) (o : Obs) (v' : ℝ) :
    keysOf (pre ++ { o with value := v' } :: post) =
      keysOf (pre ++ o :: post) := by
  rw [keysOf, keysOf]
  congr 1
  simp

theorem update_cell_eq (pre post : List Obs) (o : Obs) (v' : ℝ)
    (w : WeightTree) (r : String) (k : String × String)
    (h : ¬(r = o.region ∧ k = (o.category, o.subCategory))) :
    pivotCell (pre ++ { o with value := v' } :: post) w r k =
      pivotCell (pre ++ o :: post) w r k := by
  rw [pivotCell_append, pivotCell_append, pivotCell_cons, pivotCell_cons]
  dsimp only
  by_cases hc : (o.region == r && o.category == k.1 && o.subCategory == k.2 : Bool)
  · exfalso
    simp only [Bool.and_eq_true, beq_iff_eq] at hc
    exact h ⟨hc.1.1.symm, Prod.ext_iff.mpr ⟨hc.1.2.symm, hc.2.symm⟩⟩
  · rw [Bool.not_eq_true] at hc
    rw [hc]
    simp

theorem update_cell_le (pre post : List Obs) (o : Obs) (v' : ℝ)
    (w : WeightTree) (hw : ∀ c s, 0 ≤ weightOf w c s) (hv : o.value ≤ v')
    (r : String) (k : String × String) :
    pivotCell (pre ++ o :: post) w r k ≤
      pivotCell (pre ++ { o with value := v' } :: post) w r k := by
  rw [pivotCell_append, pivotCell_append, pivotCell_cons, pivotCell_cons]
  dsimp only
  by_cases hc : (o.region == r && o.category == k.1 && o.subCategory == k.2 : Bool)
  · rw [if_pos hc, if_pos hc]
    have hmul : o.value * weightOf w o.category o.subCategory ≤
        v' * weightOf w o.category o.subCategory :=
      mul_le_mul_of_nonneg_right hv (hw o.category o.subCategory)
    linarith
  · rw [Bool.not_eq_true] at hc
    rw [hc]
    simp

/-- C9: increasing one region's normalized value for a (benefit)
criterion, all other values and all weights fixed, does not decrease
that region's final TOPSIS score. -/
theorem topsis_benefit_value_increase_monotone (pre post : List Obs)
    (o : Obs) (v' : ℝ) (w : WeightTree)
    (hw : ∀ c s, 0 ≤ weightOf w c s) (hb : o.ctype = "Benefit")
    (hv : o.value ≤ v')
    (hd : ∀ r ∈ regionsOf (pre ++ o :: post),
      0 < distIdeal (pre ++ o :: post) w r + distAnti (pre ++ o :: post) w r)
    (hd' : ∀ r ∈ regionsOf (pre ++ { o with value := v' } :: post),
      0 < distIdeal (pre ++ { o with value := v' } :: post) w r +
        distAnti (pre ++ { o with value := v' } :: post) w r)
    (hs : listMin (rawScores (pre ++ o :: post) w) <
      listMax (rawScores (pre ++ o :: post) w))
    (hs' : listMin (rawScores (pre ++ { o with value := v' } :: post) w) <
      listMax (rawScores (pre ++ { o with value := v' } :: post) w)) :
    ((o.region, finalScore (pre ++ o :: post) w o.region) ∈
        topsis (pre ++ o :: post) w) ∧
      finalScore (pre ++ o :: post) w o.region ≤
        finalScore (pre ++ { o with value := v' } :: post) w o.region := by
  have hr0 : o.region ∈ regionsOf (pre ++ o :: post) :=
    mem_regionsOf (by simp)
  have hreg := update_regions pre post o v'
  constructor
  · exact List.mem_map_of_mem _ hr0
  · refine finalScore_mono_core _ _ w o.region (o.category, o.subCategory)
      hr0 hreg (update_keys pre post o v')
      (fun r k h => update_cell_eq pre post o v' w r k h)
      (fun r k => update_cell_le pre post o v' w hw hv r k)
      hd (by rw [← hreg]; exact hd') hs hs'

/-! ## Evaluation of the bumped two-region scenario -/

theorem weightOf_unitTree (c s : String) : weightOf unitTree c s = 1 := by
  rw [weightOf]
  by_cases hcC : ("C" : String) = c
  · subst hcC
    show (List.lookup s [("s", (1 : ℝ))]).getD 1 = 1
    by_cases hs : ("s" : String) = s
    · subst hs
      rfl
    · rw [List.lookup, show (s == "s") = false from
        beq_eq_false_iff_ne.mpr (Ne.symm hs)]
      rfl
  · have hnone : List.lookup c unitTree = none := by
      rw [unitTree, List.lookup, show (c == "C") = false from
        beq_eq_false_iff_ne.mpr (Ne.symm hcC)]
      rfl
    rw [hnone]

theorem tB_cellA : pivotCell twoRegionBumped unitTree "A" ("C", "s") = 1 / 2 := by
  simp [pivotCell, twoRegionBumped, unitTree, weightOf]

theorem tB_cellB : pivotCell twoRegionBumped unitTree "B" ("C", "s") = 1 := by
  simp [pivotCell, twoRegionBumped, unitTree, weightOf]

theorem tB_regions : regionsOf twoRegionBumped = ["A", "B"] := by
  simp [regionsOf, twoRegionBumped, sortLe, insertLe]
  decide

theorem tB_keys : keysOf twoRegionBumped = [("C", "s")] := by
  simp [keysOf, twoRegionBumped]

theorem tB_ideal : ideal twoRegionBumped unitTree ("C", "s") = 1 := by
  rw [ideal, tB_regions]
  simp [listMax, tB_cellA, tB_cellB]
  norm_num

theorem tB_anti : antiIdeal twoRegionBumped unitTree ("C", "s") = 1 / 2 := by
  rw [antiIdeal, tB_regions]
  simp [listMin, tB_cellA, tB_cellB]
  norm_num

theorem tB_dIA : distIdeal twoRegionBumped unitTree "A" = 1 / 2 := by
  rw [distIdeal, tB_keys]
  simp only [List.map_cons, List.map_nil, List.sum_cons, List.sum_nil,
    tB_cellA, tB_ideal]
  rw [show (1 / 2 - 1 : ℝ) ^ 2 + 0 = (1 / 2) ^ 2 by norm_num,
    Real.sqrt_sq (by norm_num)]

theorem tB_dAA : distAnti twoRegionBumped unitTree "A" = 0 := by
  rw [distAnti, tB_keys]
  simp [tB_cellA, tB_anti]

theorem tB_dIB : distIdeal twoRegionBumped unitTree "B" = 0 := by
  rw [distIdeal, tB_keys]
  simp [tB_cellB, tB_ideal]

theorem tB_dAB : distAnti twoRegionBumped unitTree "B" = 1 / 2 := by
  rw [distAnti, tB_keys]
  simp only [List.map_cons, List.map_nil, List.sum_cons, List.sum_nil,
    tB_cellB, tB_anti]
  rw [show (1 - 1 / 2 : ℝ) ^ 2 + 0 = (1 / 2) ^ 2 by norm_num,
    Real.sqrt_sq (by norm_num)]

theorem tB_rawA : rawScore twoRegionBumped unitTree "A" = 0 := by
  rw [rawScore, tB_dIA, tB_dAA]
  norm_num

theorem tB_rawB : rawScore twoRegionBumped unitTree "B" = 1 := by
  rw [rawScore, tB_dIB, tB_dAB]
  norm_num

theorem tB_raws : rawScores twoRegionBumped unitTree = [0, 1] := by
  rw [rawScores, tB_regions]
  simp [tB_rawA, tB_rawB]

/-- Witness for C9: raising region `A`'s value from `0` to `1/2` in the
two-region scenario (both runs non-degenerate). -/
theorem topsis_benefit_value_increase_monotone_witness :
    (0 : ℝ) ≤ 1 / 2 ∧
      ((("A" : String), finalScore twoRegionData unitTree "A") ∈
        topsis twoRegionData unitTree) ∧
      finalScore twoRegionData unitTree "A" ≤
        finalScore twoRegionBumped unitTree "A" := by
  have e1 : ([] : List Obs) ++ (⟨"A", "C", "s", 0, "Benefit"⟩ : Obs) ::
      [⟨"B", "C", "s", 1, "Benefit"⟩] = twoRegionData := rfl
  have e2 : ([] : List Obs) ++
      ({ (⟨"A", "C", "s", 0, "Benefit"⟩ : Obs) with value := 1 / 2 } : Obs) ::
      [⟨"B", "C", "s", 1, "Benefit"⟩] = twoRegionBumped := rfl
  have h := topsis_benefit_value_increase_monotone []
    [⟨"B", "C", "s", 1, "Benefit"⟩] ⟨"A", "C", "s", 0, "Benefit"⟩ (1 / 2)
    unitTree (fun c s => by rw [weightOf_unitTree]; norm_num) rfl
    (by norm_num)
    (by
      rw [e1]
      intro r hr
      rw [tR_regions] at hr
      simp only [List.mem_cons, List.mem_singleton, List.not_mem_nil,
        or_false] at hr
      rcases hr with rfl | rfl
      · rw [tR_dIA, tR_dAA]
        norm_num
      · rw [tR_dIB, tR_dAB]
        norm_num)
    (by
      rw [e2]
      intro r hr
      rw [tB_regions] at hr
      simp only [List.mem_cons, List.mem_singleton, List.not_mem_nil,
        or_false] at hr
      rcases hr with rfl | rfl
      · rw [tB_dIA, tB_dAA]
        norm_num
      · rw [tB_dIB, tB_dAB]
        norm_num)
    (by
      rw [e1, tR_raws]
      norm_num [listMax, listMin])
    (by
      rw [e2, tB_raws]
      norm_num [listMax, listMin])
  rw [e1, e2] at h
  exact ⟨by norm_num, h.1, h.2⟩
